import Mathlib

/-!
Verification of the chunked streaming download engine
(`azure/storage/blob/aio/_download_async.py`).

The embedding models the unencrypted download path as a pure state machine:
the blob content is a list of bytes (`List Nat`), every network interaction
is recorded in an explicit request log, and each consumer operation of
`StorageStreamDownloader` (`read`, `readall`, `readinto`, `chunks`) is a
function from the facade state to a result, a new state and the list of
requests it issued.  `process_range_and_offset` and `process_content` are
the identity in the unencrypted path (no key and no resolver configured),
so they are inlined; `_download_complete` takes the
`is_encryption_v2(None) = False` branch and compares
`raw_download_offset` with `size`.

Helpers of the shared `_ChunkDownloader` base class
(`get_chunk_offsets`, `_calculate_range`, `_do_optimize`) are not part of
the provided sources; they are modelled from the spec and marked as such.
-/

set_option linter.unusedVariables false

namespace BlobDL

/-- One network request issued by the downloader: a range GET, a plain
(no-range, property-style) GET, or the page-ranges request used for the
sparse page-blob optimization. -/
inductive Req where
  | range (s e : Nat)
  | plain
  | pageRanges
deriving Repr, DecidableEq

/-- Static configuration of one download session: the blob's bytes, the
client configuration sizes, the concurrency bound, the optional text
encoding (`decode` maps raw bytes to decoded code points; it models the
configured codec and is only meaningful when `encoding` is set), the
optional requested range, and the page-blob metadata (`pageRanges` is the
server's non-empty range list, `none` when the best-effort page-range
request failed). -/
structure Cfg where
  blob : List Nat
  maxSingleGetSize : Nat
  maxChunkGetSize : Nat
  maxConcurrency : Nat
  encoding : Bool
  decode : List Nat → List Nat
  startRange : Option Nat
  endRange : Option Nat
  isPageBlob : Bool
  pageRanges : Option (List (Nat × Nat))

/-- The mutable state of `StorageStreamDownloader`: the window size
(`self.size`), the window start (`self._download_start`), the buffered
current chunk (`self._current_content`, decoded code points once in text
mode), the four offset counters, the tri-state stream mode
(`self._text_mode`), the first-chunk flag and the sparse range map. -/
structure DLState where
  size : Nat
  downloadStart : Nat
  currentContent : List Nat
  downloadOffset : Nat
  rawDownloadOffset : Nat
  readOffset : Nat
  currentContentOffset : Nat
  textMode : Option Bool
  firstChunk : Bool
  nonEmptyRanges : Option (List (Nat × Nat))
deriving Repr, DecidableEq

/-- Contiguous sub-list `[s, e)` of a byte list (clamped at both ends,
exactly like Python slicing `l[s:e]`). -/
def slice (l : List Nat) (s e : Nat) : List Nat :=
  (l.drop s).take (e - s)

/-- `sys.maxsize` on a 64-bit CPython build, used by `read` as the
"unbounded" sentinel. -/
def MAXSIZE : Nat := 2 ^ 63 - 1

/-- `StorageStreamDownloader._download_complete` in the unencrypted path:
`is_encryption_v2(None)` is false, so the raw offset is compared with
`size`. -/
def download_complete (st : DLState) : Bool :=
  st.size ≤ st.rawDownloadOffset

/-- Modelled from the spec: `_ChunkDownloader._do_optimize` (the shared
sync base class is not among the provided sources).  Sparse-skip rule:
with a known non-empty range map, a candidate wire sub-range `[s, e]`
may be skipped exactly when it lies entirely outside every non-empty
range; without a range map nothing is skipped. -/
def do_optimize (ranges : Option (List (Nat × Nat))) (s e : Nat) : Bool :=
  match ranges with
  | none => false
  | some rs => rs.all fun r => decide (e < r.1) || decide (r.2 < s)

/-- `_AsyncChunkDownloader._download_chunk` for the inclusive wire range
`[s, e]` (unencrypted: `process_range_and_offset` is the identity and
`process_content` returns the body unchanged).  Returns the chunk data,
the response `content_length`, and the requests issued: a skipped chunk
synthesizes `e - s + 1` zero bytes with no request, otherwise one range
GET is issued and the body is the blob slice. -/
def download_chunk (cfg : Cfg) (ranges : Option (List (Nat × Nat))) (s e : Nat) :
    List Nat × Nat × List Req :=
  if do_optimize ranges s e then
    (List.replicate (e + 1 - s) 0, e + 1 - s, [])
  else
    let data := slice cfg.blob s (e + 1)
    (data, data.length, [Req.range s e])

/-- Modelled from the spec: `_ChunkDownloader._calculate_range` — a chunk
starting at `c` ends at `c + chunk_size`, clipped to the plan's end
(chunk size is fixed except for the final, possibly shorter, chunk). -/
def calculate_range (chunkSize endIdx c : Nat) : Nat × Nat :=
  (c, min (c + chunkSize) endIdx)

/-- `_AsyncChunkDownloader.yield_chunk`: fetch the single chunk starting
at `c` (the wire range is inclusive, hence the `- 1`). -/
def yield_chunk (cfg : Cfg) (ranges : Option (List (Nat × Nat)))
    (chunkSize endIdx c : Nat) : List Nat × Nat × List Req :=
  let r := calculate_range chunkSize endIdx c
  download_chunk cfg ranges r.1 (r.2 - 1)

/-- Modelled from the spec: `_ChunkDownloader.get_chunk_offsets` — the
ordered chunk start offsets `start, start + chunk_size, …` strictly below
`endIdx`.  (The source generator would loop forever on a zero chunk size;
the model returns `[]` there and theorems assume a positive chunk size.) -/
def get_chunk_offsets (chunkSize start endIdx : Nat) : List Nat :=
  if h : 0 < chunkSize ∧ start < endIdx then
    start :: get_chunk_offsets chunkSize (start + chunkSize) endIdx
  else []
termination_by endIdx - start
decreasing_by omega

/-- The cumulative effect of `process_chunk` over a list of chunk offsets.
Each `process_chunk` writes its chunk at the fixed stream position
`stream_start + (chunk_start - start_index)`; since the chunk ranges tile
the plan's window and each body has exactly the range's length, the final
stream content is the concatenation of the chunk bodies in offset order,
independently of the completion order of the concurrent fetches. -/
def process_chunk_all (cfg : Cfg) (ranges : Option (List (Nat × Nat)))
    (chunkSize endIdx : Nat) : List Nat → List Nat × List Req
  | [] => ([], [])
  | o :: rest =>
    let c := yield_chunk cfg ranges chunkSize endIdx o
    let r := process_chunk_all cfg ranges chunkSize endIdx rest
    (c.1 ++ r.1, c.2.2 ++ r.2)

/-- The initial request's start offset (`initial_request_start`). -/
def init_s0 (cfg : Cfg) : Nat := cfg.startRange.getD 0

/-- The initial request's end offset (`initial_request_end`): the user's
end range when it falls inside the first GET, else
`start + first_get_size - 1`. -/
def init_e0 (cfg : Cfg) : Nat :=
  match cfg.endRange with
  | some e => if e - init_s0 cfg < cfg.maxSingleGetSize then e
              else init_s0 cfg + cfg.maxSingleGetSize - 1
  | none => init_s0 cfg + cfg.maxSingleGetSize - 1

/-- The sparse range map retained by the facade: only a page blob has one
(best effort). -/
def init_ranges (cfg : Cfg) : Option (List (Nat × Nat)) :=
  if cfg.isPageBlob then cfg.pageRanges else none

/-- The page-ranges request issued for a page blob. -/
def init_page_reqs (cfg : Cfg) : List Req :=
  if cfg.isPageBlob then [Req.pageRanges] else []

/-- The window size derived from the file size and the requested range. -/
def init_size (cfg : Cfg) : Nat :=
  match cfg.endRange with
  | some e => min (cfg.blob.length - init_s0 cfg) (e - init_s0 cfg + 1)
  | none =>
    match cfg.startRange with
    | some s => cfg.blob.length - s
    | none => cfg.blob.length

/-- The body of the successful initial range GET. -/
def init_body (cfg : Cfg) : List Nat := slice cfg.blob (init_s0 cfg) (init_e0 cfg + 1)

/-- The facade state after a successful initial request. -/
def init_state (cfg : Cfg) : DLState :=
  { size := init_size cfg, downloadStart := init_s0 cfg,
    currentContent := if init_size cfg = 0 then [] else init_body cfg,
    downloadOffset := (if init_size cfg = 0 then [] else init_body cfg).length,
    rawDownloadOffset := (init_body cfg).length,
    readOffset := 0, currentContentOffset := 0, textMode := none,
    firstChunk := true, nonEmptyRanges := init_ranges cfg }

/-- The facade state after the empty-blob 416 fallback. -/
def init_fallback_state (cfg : Cfg) : DLState :=
  { size := 0, downloadStart := 0, currentContent := [],
    downloadOffset := 0, rawDownloadOffset := 0, readOffset := 0,
    currentContentOffset := 0, textMode := none, firstChunk := true,
    nonEmptyRanges := init_ranges cfg }

/-- `StorageStreamDownloader._setup` followed by `_initial_request`.
The initial range is `[s0, s0 + first_get_size - 1]` clipped to a
requested end range.  A range GET whose start lies beyond the blob fails
with status 416: with no user start range this falls back to a plain GET
(any blob with such a failing initial request is empty, so the fallback
sets `size = 0`); with a user start range the 416 is propagated.  On
success the window size is derived from the content-range file size and
the requested range, the first body is buffered, and both download
offsets advance by the body length.  For a page blob the non-empty range
map is fetched (best effort — `cfg.pageRanges = none` models its
failure). -/
def initial_request (cfg : Cfg) : Except Nat (DLState × List Req) :=
  if cfg.blob.length ≤ init_s0 cfg then
    match cfg.startRange with
    | none =>
        .ok (init_fallback_state cfg,
          [Req.range (init_s0 cfg) (init_e0 cfg), Req.plain] ++ init_page_reqs cfg)
    | some _ => .error 416
  else
    .ok (init_state cfg, [Req.range (init_s0 cfg) (init_e0 cfg)] ++ init_page_reqs cfg)

/-- The value returned by `read`: raw bytes, or decoded text (as code
points) when the stream is, or ends up being, decoded. -/
inductive ReadData where
  | bytes (b : List Nat)
  | text (t : List Nat)
deriving Repr, DecidableEq

instance {ε α : Type} [DecidableEq ε] [DecidableEq α] : DecidableEq (Except ε α) := fun x y =>
  match x, y with
  | .error a, .error b =>
      if h : a = b then isTrue (by subst h; rfl)
      else isFalse (fun hh => by cases hh; exact h rfl)
  | .error _, .ok _ => isFalse (fun hh => by cases hh)
  | .ok _, .error _ => isFalse (fun hh => by cases hh)
  | .ok a, .ok b =>
      if h : a = b then isTrue (by subst h; rfl)
      else isFalse (fun hh => by cases hh; exact h rfl)

/-- Outcome of one `read` call: the result (or the `ValueError` message),
the facade state afterwards (unchanged when an error is raised — every
usage error in the source is raised before any mutation), and the network
requests issued. -/
structure ReadOut where
  result : Except String ReadData
  state : DLState
  reqs : List Req
deriving Repr, DecidableEq

/-- The empty result of `read`: `b''` without an encoding, `''` with one. -/
def emptyData (cfg : Cfg) : ReadData :=
  if cfg.encoding then .text [] else .bytes []

/-- `StorageStreamDownloader._complete_read`: adjusts all offsets to the
end of the download. -/
def complete_read (st : DLState) : DLState :=
  { st with downloadOffset := st.size, rawDownloadOffset := st.size,
            readOffset := st.size,
            currentContentOffset := st.currentContent.length }

/-- The sequential chunk loop of `read` (`while (chunk := next(...))<...>`):
pull one chunk at a time, advance both download offsets, replace the
buffered content (decoding it in text mode), deliver up to `remaining`
units and stop once `remaining` reaches zero.  Returns the final state,
the delivered output and the requests issued.  The incremental decoder is
modelled as the stateless `cfg.decode`. -/
def read_loop (cfg : Cfg) (textMode : Bool) (chunkSize endIdx : Nat) :
    List Nat → Nat → DLState → DLState × List Nat × List Req
  | [], _, st => (st, [], [])
  | o :: rest, remaining, st =>
    if remaining = 0 then (st, [], [])
    else
      let c := yield_chunk cfg st.nonEmptyRanges chunkSize endIdx o
      let cur := if textMode then cfg.decode c.1 else c.1
      let readN := min remaining cur.length
      let st1 : DLState := { st with
        downloadOffset := st.downloadOffset + c.1.length,
        rawDownloadOffset := st.rawDownloadOffset + c.2.1,
        currentContent := cur,
        currentContentOffset := readN,
        readOffset := st.readOffset + readN }
      let r := read_loop cfg textMode chunkSize endIdx rest (remaining - readN) st1
      (r.1, cur.take readN ++ r.2.1, c.2.2 ++ r.2.2)

/-- Mode fixing on first consumption (`read`, after the usage checks and
the early return): a chars request switches the stream to text mode and
decodes the buffered content; otherwise a still-unset mode becomes bytes
mode. -/
def read_mode (cfg : Cfg) (st : DLState) (chars : Option Int) : DLState :=
  if st.textMode ≠ some true ∧ chars.isSome then
    { st with textMode := some true, currentContent := cfg.decode st.currentContent }
  else if st.textMode = none then { st with textMode := some false }
  else st

/-- The internal bound of `read`: `chars if chars else sys.maxsize` in
text mode, `size if size > 0 else sys.maxsize` in bytes mode. -/
def read_limit (tm : Bool) (size : Int) (chars : Option Int) : Int :=
  if tm then
    (match chars with
     | some c => c
     | none => (MAXSIZE : Int))
  else if size > 0 then size else (MAXSIZE : Int)

/-- Units served from the buffered chunk:
`min(len(current) - current_offset, limit)` clamped at zero (a negative
limit serves nothing, as the Python slice would). -/
def buf_len (st1 : DLState) (limit : Int) : Nat :=
  (min ((st1.currentContent.length - st1.currentContentOffset : Nat) : Int) limit).toNat

/-- The units actually served from the buffered chunk. -/
def buf_take (st1 : DLState) (limit : Int) : List Nat :=
  (st1.currentContent.drop st1.currentContentOffset).take (buf_len st1 limit)

/-- Offset bookkeeping of the buffered-chunk stage of `read`. -/
def buf_state (st1 : DLState) (limit : Int) : DLState :=
  { st1 with
    currentContentOffset := st1.currentContentOffset + buf_len st1 limit,
    readOffset := st1.readOffset + buf_len st1 limit }

/-- The download stage of `read`, entered when more data is wanted and the
download is incomplete: clear the first-chunk flag and either run the
concurrent scheduler over the whole remaining window (read-all in bytes
mode; each chunk is written at its own fixed stream offset, so the final
stream is the offset-ordered concatenation) followed by `_complete_read`,
or pull chunks one at a time through the sequential loop. -/
def read_dl (cfg : Cfg) (st2 : DLState) (buffer0 : List Nat)
    (tm isReadall : Bool) (remaining : Int) : ReadOut :=
  let start := st2.downloadStart + st2.downloadOffset
  let endIdx := st2.downloadStart + st2.size
  let st3 := { st2 with firstChunk := false }
  let offsets := get_chunk_offsets cfg.maxChunkGetSize start endIdx
  if isReadall ∧ ¬tm then
    let pr := process_chunk_all cfg st3.nonEmptyRanges cfg.maxChunkGetSize endIdx offsets
    let data := buffer0 ++ pr.1
    ⟨.ok (if cfg.encoding then .text (cfg.decode data) else .bytes data),
      complete_read st3, pr.2⟩
  else
    let r := read_loop cfg tm cfg.maxChunkGetSize endIdx offsets remaining.toNat st3
    let data := buffer0 ++ r.2.1
    ⟨.ok (if tm then .text data
          else if cfg.encoding then .text (cfg.decode data) else .bytes data),
      r.1, r.2.2⟩

/-- `StorageStreamDownloader.read(size=-1, *, chars=None)`.  Follows the
source line by line: the four usage-error checks, the empty-result early
return, fixing the stream mode on first consumption, serving from the
buffered chunk, then — if more is wanted and the download is incomplete —
the download stage.  A bytes result is decoded at the end when an
encoding is configured (the backwards-compatibility path in the source). -/
def read (cfg : Cfg) (st : DLState) (size : Int) (chars : Option Int) : ReadOut :=
  if size > -1 ∧ chars.isSome then
    ⟨.error "Cannot specify both size and chars.", st, []⟩
  else if ¬cfg.encoding ∧ chars.isSome then
    ⟨.error "Must specify encoding to read chars.", st, []⟩
  else if st.textMode = some true ∧ size > -1 then
    ⟨.error "Stream has been partially read in text mode. Please use chars.", st, []⟩
  else if st.textMode = some false ∧ chars.isSome then
    ⟨.error "Stream has been partially read in bytes mode. Please use size.", st, []⟩
  else if size = 0 ∨ chars = some 0 ∨
      (download_complete st ∧ st.currentContent.length ≤ st.currentContentOffset) then
    ⟨.ok (emptyData cfg), st, []⟩
  else
    let st1 := read_mode cfg st chars
    let tm : Bool := st1.textMode = some true
    let limit := read_limit tm size chars
    let buffer0 := buf_take st1 limit
    let st2 := buf_state st1 limit
    let remaining : Int := limit - buf_len st1 limit
    if remaining > 0 ∧ ¬download_complete st2 then
      read_dl cfg st2 buffer0 tm (decide (limit = (MAXSIZE : Int))) remaining
    else
      ⟨.ok (if tm then .text buffer0
            else if cfg.encoding then .text (cfg.decode buffer0) else .bytes buffer0),
        st2, []⟩

/-- `StorageStreamDownloader.readall()`: `read()` with no bound. -/
def readall (cfg : Cfg) (st : DLState) : ReadOut :=
  read cfg st (-1) none

/-- Outcome of one `readinto` call: the returned byte count (or the
`ValueError` message), the facade state, the sink contents and the
requests issued. -/
structure IntoOut where
  result : Except String Int
  state : DLState
  sink : List Nat
  reqs : List Req
deriving Repr, DecidableEq

/-- `StorageStreamDownloader.readinto(stream)`.  The sink is a byte list;
`seekable` abstracts the sink's random-access capability (required when
`max_concurrency > 1`).  Flushes the remaining buffered chunk into the
sink, then — unless the download is already complete — runs the
concurrent scheduler over the remaining window, writing each chunk at its
own sink offset (order-independent, hence the concatenation), and ends
with `_complete_read`.  Returns `size - read_offset` as computed before
any writing, exactly like the source. -/
def readinto (cfg : Cfg) (st : DLState) (sink : List Nat) (seekable : Bool) : IntoOut :=
  if st.textMode = some true then
    ⟨.error "Stream has been partially read in text mode. readinto is not supported in text mode.",
      st, sink, []⟩
  else if 1 < cfg.maxConcurrency ∧ ¬seekable then
    ⟨.error "Target stream handle must be seekable.", st, sink, []⟩
  else
    let remainingSize : Int := (st.size : Int) - st.readOffset
    if remainingSize ≤ 0 then ⟨.ok 0, st, sink, []⟩
    else
      let currentRemaining := st.currentContent.length - st.currentContentOffset
      let written := (st.currentContent.drop st.currentContentOffset).take currentRemaining
      let st1 := { st with
        currentContentOffset := st.currentContentOffset + written.length,
        readOffset := st.readOffset + written.length }
      let sink1 := sink ++ written
      if download_complete st1 then ⟨.ok remainingSize, st1, sink1, []⟩
      else
        let dataStart := st1.downloadStart + st1.readOffset
        let dataEnd := st1.downloadStart + st1.size
        let offsets := get_chunk_offsets cfg.maxChunkGetSize dataStart dataEnd
        let pr := process_chunk_all cfg st1.nonEmptyRanges cfg.maxChunkGetSize dataEnd offsets
        ⟨.ok remainingSize, complete_read st1, sink1 ++ pr.1, pr.2⟩

/-- Outcome of draining one `chunks()` iterator: the yielded chunks in
order (or the text-mode `ValueError`), and the requests issued. -/
structure ChunksOut where
  result : Except String (List (List Nat))
  reqs : List Req
deriving Repr, DecidableEq

/-- `_AsyncChunkIterator.__anext__` drained to a list, in the
no-downloader case (the whole download is already buffered): slices of
`chunk_size` are yielded while the buffer is strictly larger than
`chunk_size`, then the remainder is yielded as the final chunk. -/
def chunk_iter_local (chunkSize : Nat) (current : List Nat) : List (List Nat) :=
  if h : 0 < chunkSize ∧ chunkSize < current.length then
    current.take chunkSize :: chunk_iter_local chunkSize (current.drop chunkSize)
  else [current]
termination_by current.length
decreasing_by simp; omega

/-- `_AsyncChunkIterator.__anext__` drained to a list, with an iterator
downloader: while the buffer holds at least `chunk_size` units a chunk is
yielded from it; otherwise the next chunk offset is fetched and appended
and a (possibly short) chunk is yielded; when the offsets are exhausted a
non-empty remainder is yielded.  (The source's loop guard would not
terminate on a zero chunk size; theorems assume a positive one.) -/
def chunk_iter (cfg : Cfg) (ranges : Option (List (Nat × Nat)))
    (chunkSize endIdx : Nat) : List Nat → List Nat → List (List Nat) × List Req
  | offsets, current =>
    if h : 0 < chunkSize ∧ chunkSize ≤ current.length then
      let r := chunk_iter cfg ranges chunkSize endIdx offsets (current.drop chunkSize)
      (current.take chunkSize :: r.1, r.2)
    else
      match offsets with
      | [] => (if current.isEmpty then [] else [current], [])
      | o :: rest =>
        let c := yield_chunk cfg ranges chunkSize endIdx o
        let cur := current ++ c.1
        let r := chunk_iter cfg ranges chunkSize endIdx rest (cur.drop chunkSize)
        (cur.take chunkSize :: r.1, c.2.2 ++ r.2)
termination_by offsets current => (offsets.length, current.length)
decreasing_by
  · apply Prod.Lex.right; simp; omega
  · apply Prod.Lex.left; simp

/-- `StorageStreamDownloader.chunks()` with the returned iterator drained:
disallowed in text mode; when the first chunk is still buffered and the
download is incomplete, an iterator downloader continues from the end of
the buffered content, otherwise it re-downloads the whole window; with
everything buffered the buffer alone is sliced.  A zero-size window
yields no chunks (the iterator starts complete). -/
def chunks_drained (cfg : Cfg) (st : DLState) : ChunksOut :=
  if st.textMode = some true then
    ⟨.error "Stream has been partially read in text mode. chunks is not supported in text mode.",
      []⟩
  else if ¬st.firstChunk ∨ ¬download_complete st then
    if st.size = 0 then ⟨.ok [], []⟩
    else
      let start := if st.firstChunk then st.downloadStart + st.currentContent.length
                   else st.downloadStart
      let initial := if st.firstChunk then st.currentContent else []
      let endIdx := st.downloadStart + st.size
      let offsets := get_chunk_offsets cfg.maxChunkGetSize start endIdx
      let r := chunk_iter cfg st.nonEmptyRanges cfg.maxChunkGetSize endIdx offsets initial
      ⟨.ok r.1, r.2⟩
  else
    if st.size = 0 then ⟨.ok [], []⟩
    else ⟨.ok (chunk_iter_local cfg.maxChunkGetSize st.currentContent), []⟩

/-- The logical window of a session: the `size` bytes of the blob starting
at `download_start`. -/
def window (cfg : Cfg) (st : DLState) : List Nat :=
  slice cfg.blob st.downloadStart (st.downloadStart + st.size)

/-- Truthfulness of a non-empty range map: every blob byte lying outside
all reported ranges is zero.  This is the service-side guarantee that the
sparse-skip optimization relies on. -/
def SparseOk (cfg : Cfg) (ranges : Option (List (Nat × Nat))) : Prop :=
  ∀ rs, ranges = some rs → ∀ i, ∀ hi : i < cfg.blob.length,
    (∀ r ∈ rs, i < r.1 ∨ r.2 < i) → cfg.blob[i] = 0

/-- The offset invariant of a download session (unencrypted path): the two
download offsets agree, the download offset never exceeds the window
size, the cursor stays within the buffered chunk, the delivered units
plus the undelivered buffered units never exceed the download offset
(with equality in bytes mode), and a still-unset stream mode means either
nothing was consumed yet or a `readinto` drove the stream to completion. -/
structure Inv (st : DLState) : Prop where
  raw_eq : st.rawDownloadOffset = st.downloadOffset
  dl_le : st.downloadOffset ≤ st.size
  cc_le : st.currentContentOffset ≤ st.currentContent.length
  ro_le : st.readOffset + (st.currentContent.length - st.currentContentOffset) ≤
    st.downloadOffset
  ro_eq : st.textMode ≠ some true →
    st.readOffset + (st.currentContent.length - st.currentContentOffset) =
      st.downloadOffset
  fresh : st.textMode = none →
    (st.currentContentOffset = 0 ∧ st.readOffset = 0) ∨
    (st.size ≤ st.rawDownloadOffset ∧ st.currentContentOffset = st.currentContent.length)

/-- The content invariant of a bytes-mode session: the offset invariant,
bytes mode, the window inside the blob, a truthful sparse map, and the
buffered chunk being the window slice ending at the download offset
(whenever it still matters: while it is not fully consumed, and while the
initial chunk is still buffered, in which case its length equals the
download offset). -/
structure CInv (cfg : Cfg) (st : DLState) : Prop where
  inv : Inv st
  notext : st.textMode ≠ some true
  win_le : st.downloadStart + st.size ≤ cfg.blob.length
  sparse : SparseOk cfg st.nonEmptyRanges
  cur_le : st.currentContent.length ≤ st.downloadOffset
  content : st.currentContentOffset < st.currentContent.length ∨ st.firstChunk = true →
    st.currentContent =
      slice cfg.blob (st.downloadStart + st.downloadOffset - st.currentContent.length)
        (st.downloadStart + st.downloadOffset)
  first_len : st.firstChunk = true → st.currentContent.length = st.downloadOffset

/-- The states a session can be in after the initial request and any
sequence of `read` calls (with arbitrary arguments; failed calls leave
the state unchanged, which `read` encodes by returning the input state). -/
inductive ReadReach (cfg : Cfg) : DLState → Prop
  | init (st : DLState) (reqs : List Req) :
      initial_request cfg = .ok (st, reqs) → ReadReach cfg st
  | step (st : DLState) (n : Int) (c : Option Int) :
      ReadReach cfg st → ReadReach cfg ((read cfg st n c).state)

/-- The states a bytes-mode session can be in after the initial request
and any sequence of `read` calls that never request chars. -/
inductive ByteReach (cfg : Cfg) : DLState → Prop
  | init (st : DLState) (reqs : List Req) :
      initial_request cfg = .ok (st, reqs) → ByteReach cfg st
  | step (st : DLState) (n : Int) :
      ByteReach cfg st → ByteReach cfg ((read cfg st n none).state)

/-- State of the concurrent chunk scheduler used by the read-all and
`readinto` paths: the chunk offsets not yet dispatched, the multiset of
offsets currently in flight, and the multiset of offsets whose fetch has
completed. -/
structure SchedState where
  pending : List Nat
  inFlight : Multiset Nat
  finished : Multiset Nat
deriving DecidableEq

/-- Start of the scheduler loop: `islice(chunks_iter, 0, max_concurrency)`
futures are dispatched up front. -/
def sched_init (offsets : List Nat) (mc : Nat) : SchedState :=
  ⟨offsets.drop mc, (↑(offsets.take mc) : Multiset Nat), 0⟩

/-- One iteration of the scheduler loop: `asyncio.wait(...,
FIRST_COMPLETED)` returns a non-empty subset `D` of the in-flight fetches
as done; one new fetch is then dispatched per completed one, until the
offset iterator is exhausted (after which the loop breaks and the
remaining in-flight fetches are drained by further steps with nothing
left to dispatch). -/
inductive SchedStep : SchedState → SchedState → Prop
  | wave (s : SchedState) (D : Multiset Nat) (hne : D ≠ 0) (hle : D ≤ s.inFlight) :
      SchedStep s
        ⟨s.pending.drop (Multiset.card D),
         s.inFlight - D + (↑(s.pending.take (Multiset.card D)) : Multiset Nat),
         s.finished + D⟩

/-- Concrete session used by the witnesses: a five-byte blob, four-byte
initial GET, three-byte chunks, sequential, no encoding, no ranges. -/
def wcfg : Cfg where
  blob := [10, 11, 12, 13, 14]
  maxSingleGetSize := 4
  maxChunkGetSize := 3
  maxConcurrency := 1
  encoding := false
  decode := id
  startRange := none
  endRange := none
  isPageBlob := false
  pageRanges := none

/-- The state of `wcfg`'s session right after the initial request. -/
def wst : DLState where
  size := 5
  downloadStart := 0
  currentContent := [10, 11, 12, 13]
  downloadOffset := 4
  rawDownloadOffset := 4
  readOffset := 0
  currentContentOffset := 0
  textMode := none
  firstChunk := true
  nonEmptyRanges := none

/-- Empty blob, no range: the concrete configuration of the C6 witness. -/
def e6cfg : Cfg := { wcfg with blob := [] }

/-- Configuration of the C4 counterexample: the witness session with a
text encoding configured (identity decoder). -/
def c4cfg : Cfg := { wcfg with encoding := true }

/-- Configuration of the C1 counterexample: a three-byte blob fully
buffered by the initial four-byte GET, so the download is complete while
nothing has been read yet. -/
def c1cfg : Cfg := { wcfg with blob := [1, 2, 3] }

/-- The state of `c1cfg`'s session right after the initial request:
complete (`download_offset = size = 3`) with all content still unread. -/
def c1st : DLState where
  size := 3
  downloadStart := 0
  currentContent := [1, 2, 3]
  downloadOffset := 3
  rawDownloadOffset := 3
  readOffset := 0
  currentContentOffset := 0
  textMode := none
  firstChunk := true
  nonEmptyRanges := none

/-! ### Basic slice and chunk lemmas -/

theorem slice_length {l : List Nat} {s e : Nat} (h : e ≤ l.length) (hs : s ≤ e) :
    (slice l s e).length = e - s := by
  simp [slice]; omega

theorem slice_nil {l : List Nat} {s e : Nat} (h : e ≤ s) : slice l s e = [] := by
  simp [slice]; omega

theorem slice_append {l : List Nat} {a m b : Nat} (h1 : a ≤ m) (h2 : m ≤ b) :
    slice l a m ++ slice l m b = slice l a b := by
  unfold slice
  have hd : l.drop m = (l.drop a).drop (m - a) := by
    rw [List.drop_drop]; congr 1; omega
  rw [hd]
  have hsum : b - a = (m - a) + (b - m) := by omega
  rw [hsum, List.take_add]

theorem slice_drop (l : List Nat) (a b k : Nat) :
    (slice l a b).drop k = slice l (a + k) b := by
  simp [slice, List.drop_take, List.drop_drop, Nat.sub_sub]

theorem get_chunk_offsets_pos {cs a b : Nat} (h1 : 0 < cs) (h2 : a < b) :
    get_chunk_offsets cs a b = a :: get_chunk_offsets cs (a + cs) b := by
  rw [get_chunk_offsets]
  simp [h1, h2]

theorem get_chunk_offsets_nil {cs a b : Nat} (h : ¬(0 < cs ∧ a < b)) :
    get_chunk_offsets cs a b = [] := by
  rw [get_chunk_offsets]
  simp only [dif_neg h]

theorem get_chunk_offsets_mem {cs a b o : Nat} (h1 : 0 < cs)
    (hm : o ∈ get_chunk_offsets cs a b) : a ≤ o ∧ o < b := by
  by_cases h2 : a < b
  · rw [get_chunk_offsets_pos h1 h2] at hm
    rcases List.mem_cons.mp hm with h | h
    · omega
    · have := get_chunk_offsets_mem h1 h
      omega
  · rw [get_chunk_offsets_nil (by omega)] at hm
    simp at hm
termination_by b - a

/-- Data returned by `_download_chunk` for the inclusive range `[s, e]`:
with a truthful sparse map it is always the corresponding blob slice, and
the reported content length is the data's length. -/
theorem download_chunk_data {cfg : Cfg} {ranges : Option (List (Nat × Nat))}
    {s e : Nat} (hsp : SparseOk cfg ranges) (hse : s ≤ e + 1)
    (he : e + 1 ≤ cfg.blob.length) :
    (download_chunk cfg ranges s e).1 = slice cfg.blob s (e + 1) := by
  unfold download_chunk
  by_cases hop : do_optimize ranges s e
  · simp only [hop, if_true]
    rcases hr : ranges with _ | rs
    · rw [hr] at hop; simp [do_optimize] at hop
    · apply List.ext_getElem
      · rw [slice_length he hse, List.length_replicate]
      · intro i h1 h2
        rw [List.getElem_replicate]
        have hi : s + i < cfg.blob.length := by
          simp [slice] at h2; omega
        have hib : i < (cfg.blob.drop s).length := by simp; omega
        have hv : (slice cfg.blob s (e + 1))[i] = cfg.blob[s + i] := by
          simp only [slice]
          rw [List.getElem_take, List.getElem_drop]
        rw [hv]
        rw [hr] at hop
        simp only [do_optimize, List.all_eq_true, Bool.or_eq_true,
          decide_eq_true_eq] at hop
        refine (hsp rs hr (s + i) hi ?_).symm
        intro r hrm
        rcases hop r hrm with h | h
        · left
          have : i < e + 1 - s := by simp [List.length_replicate] at h1; omega
          omega
        · right; omega
  · simp [hop]

theorem download_chunk_clen {cfg : Cfg} {ranges : Option (List (Nat × Nat))}
    {s e : Nat} :
    (download_chunk cfg ranges s e).2.1 = (download_chunk cfg ranges s e).1.length := by
  unfold download_chunk
  by_cases hop : do_optimize ranges s e <;> simp [hop]

theorem download_chunk_len_le {cfg : Cfg} {ranges : Option (List (Nat × Nat))}
    {s e : Nat} :
    (download_chunk cfg ranges s e).1.length ≤ e + 1 - s := by
  unfold download_chunk
  by_cases hop : do_optimize ranges s e <;> simp [hop, slice]

/-- `yield_chunk` at an offset of the plan returns exactly the blob slice
of the chunk's range. -/
theorem yield_chunk_data {cfg : Cfg} {ranges : Option (List (Nat × Nat))}
    {cs b o : Nat} (hsp : SparseOk cfg ranges) (hcs : 0 < cs) (ho : o < b)
    (hb : b ≤ cfg.blob.length) :
    (yield_chunk cfg ranges cs b o).1 = slice cfg.blob o (min (o + cs) b) := by
  show (download_chunk cfg ranges o (min (o + cs) b - 1)).1 =
    slice cfg.blob o (min (o + cs) b)
  have hm : min (o + cs) b - 1 + 1 = min (o + cs) b := by omega
  rw [download_chunk_data hsp (by omega) (by omega)]
  rw [hm]

theorem yield_chunk_len_le {cfg : Cfg} {ranges : Option (List (Nat × Nat))}
    {cs b o : Nat} (hcs : 0 < cs) (ho : o < b) :
    (yield_chunk cfg ranges cs b o).1.length ≤ min (o + cs) b - o := by
  show (download_chunk cfg ranges o (min (o + cs) b - 1)).1.length ≤ min (o + cs) b - o
  have := @download_chunk_len_le cfg ranges o (min (o + cs) b - 1)
  omega

theorem yield_chunk_clen {cfg : Cfg} {ranges : Option (List (Nat × Nat))}
    {cs b o : Nat} :
    (yield_chunk cfg ranges cs b o).2.1 = (yield_chunk cfg ranges cs b o).1.length := by
  unfold yield_chunk
  exact download_chunk_clen

theorem process_chunk_all_nil {cfg : Cfg} {ranges : Option (List (Nat × Nat))}
    {cs b : Nat} : process_chunk_all cfg ranges cs b [] = ([], []) := rfl

theorem process_chunk_all_cons {cfg : Cfg} {ranges : Option (List (Nat × Nat))}
    {cs b o : Nat} {rest : List Nat} :
    process_chunk_all cfg ranges cs b (o :: rest) =
      ((yield_chunk cfg ranges cs b o).1 ++ (process_chunk_all cfg ranges cs b rest).1,
       (yield_chunk cfg ranges cs b o).2.2 ++ (process_chunk_all cfg ranges cs b rest).2) :=
  rfl

/-- The bodies fetched by one chunk per offset of the plan, concatenated
in offset order, are exactly the blob slice of the plan's window. -/
theorem process_chunk_all_flatten {cfg : Cfg} {ranges : Option (List (Nat × Nat))}
    {cs b : Nat} (hsp : SparseOk cfg ranges) (hcs : 0 < cs)
    (hb : b ≤ cfg.blob.length) :
    ∀ a, (process_chunk_all cfg ranges cs b (get_chunk_offsets cs a b)).1 =
      slice cfg.blob a b := by
  intro a
  by_cases hab : a < b
  · rw [get_chunk_offsets_pos hcs hab, process_chunk_all_cons]
    by_cases hend : a + cs < b
    · have ih := process_chunk_all_flatten hsp hcs hb (a + cs)
      show (yield_chunk cfg ranges cs b a).1 ++
        (process_chunk_all cfg ranges cs b (get_chunk_offsets cs (a + cs) b)).1 =
        slice cfg.blob a b
      rw [ih, yield_chunk_data hsp hcs hab hb]
      have hmin : min (a + cs) b = a + cs := by omega
      rw [hmin]
      exact slice_append (by omega) (by omega)
    · have hoff : get_chunk_offsets cs (a + cs) b = [] :=
        get_chunk_offsets_nil (by omega)
      show (yield_chunk cfg ranges cs b a).1 ++
        (process_chunk_all cfg ranges cs b (get_chunk_offsets cs (a + cs) b)).1 =
        slice cfg.blob a b
      rw [hoff, process_chunk_all_nil, yield_chunk_data hsp hcs hab hb]
      have hmin : min (a + cs) b = b := by omega
      simp [hmin]
  · rw [get_chunk_offsets_nil (by omega), process_chunk_all_nil]
    rw [slice_nil (by omega)]
termination_by a => b - a

/-- The chunk ranges of a plan tile its window: the sum of the per-chunk
range lengths is the window length. -/
theorem sum_range_chunk_offsets {cs b : Nat} (hcs : 0 < cs) :
    ∀ a, ((get_chunk_offsets cs a b).map (fun o => min (o + cs) b - o)).sum = b - a := by
  intro a
  by_cases hab : a < b
  · rw [get_chunk_offsets_pos hcs hab]
    rw [List.map_cons, List.sum_cons]
    by_cases hend : a + cs < b
    · rw [sum_range_chunk_offsets hcs (a + cs)]
      omega
    · rw [get_chunk_offsets_nil (by omega)]
      simp
      omega
  · rw [get_chunk_offsets_nil (by omega)]
    simp
    omega
termination_by a => b - a

theorem get_chunk_offsets_nodup {cs b : Nat} (hcs : 0 < cs) :
    ∀ a, (get_chunk_offsets cs a b).Nodup := by
  intro a
  by_cases hab : a < b
  · rw [get_chunk_offsets_pos hcs hab]
    refine List.nodup_cons.mpr ⟨?_, get_chunk_offsets_nodup hcs (a + cs)⟩
    intro hmem
    have := get_chunk_offsets_mem hcs hmem
    omega
  · rw [get_chunk_offsets_nil (by omega)]
    exact List.nodup_nil
termination_by a => b - a

/-! ### The sequential chunk loop of `read` -/

theorem read_loop_nil {cfg : Cfg} {tm : Bool} {cs b r : Nat} {st : DLState} :
    read_loop cfg tm cs b [] r st = (st, [], []) := rfl

theorem read_loop_zero {cfg : Cfg} {tm : Bool} {cs b o : Nat} {rest : List Nat}
    {st : DLState} : read_loop cfg tm cs b (o :: rest) 0 st = (st, [], []) := rfl

theorem read_loop_cons {cfg : Cfg} {tm : Bool} {cs b o : Nat} {rest : List Nat}
    {remaining : Nat} {st : DLState} (h : remaining ≠ 0)
    {c : List Nat × Nat × List Req} {cur : List Nat} {readN : Nat} {st1 : DLState}
    (hc : c = yield_chunk cfg st.nonEmptyRanges cs b o)
    (hcur : cur = if tm then cfg.decode c.1 else c.1)
    (hreadN : readN = min remaining cur.length)
    (hst1 : st1 = { st with
      downloadOffset := st.downloadOffset + c.1.length,
      rawDownloadOffset := st.rawDownloadOffset + c.2.1,
      currentContent := cur,
      currentContentOffset := readN,
      readOffset := st.readOffset + readN }) :
    read_loop cfg tm cs b (o :: rest) remaining st =
      ((read_loop cfg tm cs b rest (remaining - readN) st1).1,
       cur.take readN ++ (read_loop cfg tm cs b rest (remaining - readN) st1).2.1,
       c.2.2 ++ (read_loop cfg tm cs b rest (remaining - readN) st1).2.2) := by
  subst hc
  subst hcur
  subst hreadN
  subst hst1
  conv_lhs => rw [read_loop]
  rw [if_neg h]

/-- State bookkeeping of the sequential chunk loop: the raw and processed
offsets stay equal, the download offset grows by at most the tiled range
lengths, the buffered-cursor and read-offset relations are maintained
(with equality in bytes mode), the read offset is non-decreasing, and all
fields not owned by the loop are untouched. -/
theorem read_loop_state {cfg : Cfg} {tm : Bool} {cs b : Nat}
    (hdec : tm = true → ∀ l, (cfg.decode l).length ≤ l.length) (hcs : 0 < cs) :
    ∀ (offsets : List Nat) (remaining : Nat) (st : DLState),
    (∀ o ∈ offsets, o < b) →
    st.rawDownloadOffset = st.downloadOffset →
    st.currentContentOffset ≤ st.currentContent.length →
    st.readOffset + (st.currentContent.length - st.currentContentOffset) ≤
      st.downloadOffset →
    (tm = false → st.readOffset + (st.currentContent.length - st.currentContentOffset) =
      st.downloadOffset) →
    (remaining ≠ 0 → st.currentContentOffset = st.currentContent.length) →
    (read_loop cfg tm cs b offsets remaining st).1.rawDownloadOffset =
      (read_loop cfg tm cs b offsets remaining st).1.downloadOffset ∧
    (read_loop cfg tm cs b offsets remaining st).1.downloadOffset ≤
      st.downloadOffset + (offsets.map (fun o => min (o + cs) b - o)).sum ∧
    (read_loop cfg tm cs b offsets remaining st).1.currentContentOffset ≤
      (read_loop cfg tm cs b offsets remaining st).1.currentContent.length ∧
    (read_loop cfg tm cs b offsets remaining st).1.readOffset +
      ((read_loop cfg tm cs b offsets remaining st).1.currentContent.length -
       (read_loop cfg tm cs b offsets remaining st).1.currentContentOffset) ≤
      (read_loop cfg tm cs b offsets remaining st).1.downloadOffset ∧
    (tm = false → (read_loop cfg tm cs b offsets remaining st).1.readOffset +
      ((read_loop cfg tm cs b offsets remaining st).1.currentContent.length -
       (read_loop cfg tm cs b offsets remaining st).1.currentContentOffset) =
      (read_loop cfg tm cs b offsets remaining st).1.downloadOffset) ∧
    st.readOffset ≤ (read_loop cfg tm cs b offsets remaining st).1.readOffset ∧
    st.downloadOffset ≤ (read_loop cfg tm cs b offsets remaining st).1.downloadOffset ∧
    (read_loop cfg tm cs b offsets remaining st).1.size = st.size ∧
    (read_loop cfg tm cs b offsets remaining st).1.downloadStart = st.downloadStart ∧
    (read_loop cfg tm cs b offsets remaining st).1.textMode = st.textMode ∧
    (read_loop cfg tm cs b offsets remaining st).1.nonEmptyRanges = st.nonEmptyRanges ∧
    (read_loop cfg tm cs b offsets remaining st).1.firstChunk = st.firstChunk := by
  intro offsets
  induction offsets with
  | nil =>
    intro remaining st hb hraw hcc hro hroeq hrem
    rw [read_loop_nil]
    exact ⟨hraw, by simp, hcc, hro, hroeq, le_refl _, le_refl _, rfl, rfl, rfl, rfl, rfl⟩
  | cons o rest ih =>
    intro remaining st hb hraw hcc hro hroeq hrem
    by_cases h0 : remaining = 0
    · subst h0
      rw [read_loop_zero]
      exact ⟨hraw, by simp, hcc, hro, hroeq, le_refl _, le_refl _, rfl, rfl, rfl,
        rfl, rfl⟩
    · obtain ⟨c, hc⟩ : ∃ c, c = yield_chunk cfg st.nonEmptyRanges cs b o := ⟨_, rfl⟩
      obtain ⟨cur, hcur⟩ : ∃ cur, cur = if tm then cfg.decode c.1 else c.1 := ⟨_, rfl⟩
      obtain ⟨readN, hreadN⟩ : ∃ r, r = min remaining cur.length := ⟨_, rfl⟩
      obtain ⟨st1, hst1⟩ : ∃ s, s = { st with
        downloadOffset := st.downloadOffset + c.1.length,
        rawDownloadOffset := st.rawDownloadOffset + c.2.1,
        currentContent := cur,
        currentContentOffset := readN,
        readOffset := st.readOffset + readN } := ⟨_, rfl⟩
      rw [read_loop_cons h0 hc hcur hreadN hst1]
      have hclen : c.2.1 = c.1.length := by rw [hc]; exact yield_chunk_clen
      have hcurlen : cur.length ≤ c.1.length := by
        rw [hcur]
        cases htmc : tm with
        | true => simp [hdec htmc c.1]
        | false => simp
      have hcurlen_eq : tm = false → cur.length = c.1.length := by
        intro htm
        rw [hcur, htm]
        simp
      have hob : o < b := hb o (List.mem_cons_self o rest)
      have hlen_le : c.1.length ≤ min (o + cs) b - o := by
        rw [hc]; exact yield_chunk_len_le hcs hob
      have hcceq := hrem h0
      have e1 : st1.downloadOffset = st.downloadOffset + c.1.length := by rw [hst1]
      have e2 : st1.rawDownloadOffset = st.rawDownloadOffset + c.2.1 := by rw [hst1]
      have e3 : st1.readOffset = st.readOffset + readN := by rw [hst1]
      have e4 : st1.currentContent.length = cur.length := by rw [hst1]
      have e5 : st1.currentContentOffset = readN := by rw [hst1]
      have e6 : st1.size = st.size := by rw [hst1]
      have e7 : st1.downloadStart = st.downloadStart := by rw [hst1]
      have e8 : st1.textMode = st.textMode := by rw [hst1]
      have e9 : st1.nonEmptyRanges = st.nonEmptyRanges := by rw [hst1]
      have e10 : st1.firstChunk = st.firstChunk := by rw [hst1]
      have hihall := ih (remaining - readN) st1
        (fun o' ho' => hb o' (List.mem_cons_of_mem o ho'))
        (by omega)
        (by omega)
        (by omega)
        (by intro htm; have := hcurlen_eq htm; have := hroeq htm; omega)
        (by intro hr2; omega)
      simp only [List.map_cons, List.sum_cons]
      obtain ⟨i1, i2, i3, i4, i5, i6, i7, i8, i9, i10, i11, i12⟩ := hihall
      exact ⟨i1, by omega, i3, i4, i5, by omega, by omega, by omega,
        by rw [i9, e7], by rw [i10, e8], by rw [i11, e9], by rw [i12, e10]⟩

/-- Content tracking of the sequential bytes-mode chunk loop: afterwards
the buffered chunk is never longer than the download offset and, while
not fully consumed, equals the window slice ending at the download
offset. -/
theorem read_loop_content {cfg : Cfg} {cs b : Nat} (hcs : 0 < cs)
    (hb : b ≤ cfg.blob.length) :
    ∀ (offsets : List Nat) (remaining : Nat) (st : DLState),
    SparseOk cfg st.nonEmptyRanges →
    offsets = get_chunk_offsets cs (st.downloadStart + st.downloadOffset) b →
    st.currentContent.length ≤ st.downloadOffset →
    (st.currentContentOffset < st.currentContent.length →
      st.currentContent = slice cfg.blob
        (st.downloadStart + st.downloadOffset - st.currentContent.length)
        (st.downloadStart + st.downloadOffset)) →
    (read_loop cfg false cs b offsets remaining st).1.currentContent.length ≤
      (read_loop cfg false cs b offsets remaining st).1.downloadOffset ∧
    ((read_loop cfg false cs b offsets remaining st).1.currentContentOffset <
      (read_loop cfg false cs b offsets remaining st).1.currentContent.length →
      (read_loop cfg false cs b offsets remaining st).1.currentContent =
        slice cfg.blob
          ((read_loop cfg false cs b offsets remaining st).1.downloadStart +
            (read_loop cfg false cs b offsets remaining st).1.downloadOffset -
            (read_loop cfg false cs b offsets remaining st).1.currentContent.length)
          ((read_loop cfg false cs b offsets remaining st).1.downloadStart +
            (read_loop cfg false cs b offsets remaining st).1.downloadOffset)) := by
  intro offsets
  induction offsets with
  | nil =>
    intro remaining st hsp hoff hcl hcont
    rw [read_loop_nil]
    exact ⟨hcl, hcont⟩
  | cons o rest ih =>
    intro remaining st hsp hoff hcl hcont
    by_cases h0 : remaining = 0
    · subst h0
      rw [read_loop_zero]
      exact ⟨hcl, hcont⟩
    · have hstart : st.downloadStart + st.downloadOffset < b := by
        by_contra hge
        rw [get_chunk_offsets_nil (by omega)] at hoff
        exact List.noConfusion hoff
      rw [get_chunk_offsets_pos hcs hstart] at hoff
      have ho : o = st.downloadStart + st.downloadOffset := (List.cons.injEq .. ▸ hoff).1
      have hrest : rest = get_chunk_offsets cs (st.downloadStart + st.downloadOffset + cs) b :=
        (List.cons.injEq .. ▸ hoff).2
      obtain ⟨c, hc⟩ : ∃ c, c = yield_chunk cfg st.nonEmptyRanges cs b o := ⟨_, rfl⟩
      obtain ⟨cur, hcur⟩ :
          ∃ cur, cur = if false then cfg.decode c.1 else c.1 := ⟨_, rfl⟩
      obtain ⟨readN, hreadN⟩ : ∃ r, r = min remaining cur.length := ⟨_, rfl⟩
      obtain ⟨st1, hst1⟩ : ∃ s, s = { st with
        downloadOffset := st.downloadOffset + c.1.length,
        rawDownloadOffset := st.rawDownloadOffset + c.2.1,
        currentContent := cur,
        currentContentOffset := readN,
        readOffset := st.readOffset + readN } := ⟨_, rfl⟩
      rw [read_loop_cons h0 hc hcur hreadN hst1]
      have hcurc : cur = c.1 := by rw [hcur]; simp
      have hdata : c.1 = slice cfg.blob o (min (o + cs) b) := by
        rw [hc]
        exact yield_chunk_data hsp hcs (by omega) hb
      have hdlen : c.1.length = min (o + cs) b - o := by
        rw [hdata]
        exact slice_length (by omega) (by omega)
      have e1 : st1.downloadOffset = st.downloadOffset + c.1.length := by rw [hst1]
      have e4 : st1.currentContent = cur := by rw [hst1]
      have e7 : st1.downloadStart = st.downloadStart := by rw [hst1]
      have e9 : st1.nonEmptyRanges = st.nonEmptyRanges := by rw [hst1]
      apply ih (remaining - readN) st1
      · rw [e9]; exact hsp
      · rw [hrest, e7, e1, hdlen]
        have : st.downloadStart + (st.downloadOffset + (min (o + cs) b - o)) =
            min (st.downloadStart + st.downloadOffset + cs) b := by omega
        rw [this]
        by_cases hfit : st.downloadStart + st.downloadOffset + cs < b
        · rw [min_eq_left (by omega)]
        · rw [min_eq_right (by omega)]
          rw [get_chunk_offsets_nil (by omega), get_chunk_offsets_nil (by omega)]
      · rw [e4, e1, hcurc]
        omega
      · intro hlt
        rw [e4, e1, e7, hcurc, hdlen, hdata]
        have h1 : st.downloadStart + (st.downloadOffset + (min (o + cs) b - o)) -
            (min (o + cs) b - o) = o := by omega
        have h2 : st.downloadStart + (st.downloadOffset + (min (o + cs) b - o)) =
            min (o + cs) b := by omega
        rw [h1, h2]

/-! ### Branch equations for `read` -/

theorem read_err_both {cfg : Cfg} {st : DLState} {size : Int} {chars : Option Int}
    (h : size > -1 ∧ chars.isSome) :
    read cfg st size chars = ⟨.error "Cannot specify both size and chars.", st, []⟩ := by
  unfold read
  rw [if_pos h]

theorem read_err_enc {cfg : Cfg} {st : DLState} {size : Int} {chars : Option Int}
    (h1 : ¬(size > -1 ∧ chars.isSome)) (h2 : ¬cfg.encoding ∧ chars.isSome) :
    read cfg st size chars = ⟨.error "Must specify encoding to read chars.", st, []⟩ := by
  unfold read
  rw [if_neg h1, if_pos h2]

theorem read_err_text {cfg : Cfg} {st : DLState} {size : Int} {chars : Option Int}
    (h1 : ¬(size > -1 ∧ chars.isSome)) (h2 : ¬(¬cfg.encoding ∧ chars.isSome))
    (h3 : st.textMode = some true ∧ size > -1) :
    read cfg st size chars =
      ⟨.error "Stream has been partially read in text mode. Please use chars.", st, []⟩ := by
  unfold read
  rw [if_neg h1, if_neg h2, if_pos h3]

theorem read_err_bytes {cfg : Cfg} {st : DLState} {size : Int} {chars : Option Int}
    (h1 : ¬(size > -1 ∧ chars.isSome)) (h2 : ¬(¬cfg.encoding ∧ chars.isSome))
    (h3 : ¬(st.textMode = some true ∧ size > -1))
    (h4 : st.textMode = some false ∧ chars.isSome) :
    read cfg st size chars =
      ⟨.error "Stream has been partially read in bytes mode. Please use size.", st, []⟩ := by
  unfold read
  rw [if_neg h1, if_neg h2, if_neg h3, if_pos h4]

theorem read_empty {cfg : Cfg} {st : DLState} {size : Int} {chars : Option Int}
    (h1 : ¬(size > -1 ∧ chars.isSome)) (h2 : ¬(¬cfg.encoding ∧ chars.isSome))
    (h3 : ¬(st.textMode = some true ∧ size > -1))
    (h4 : ¬(st.textMode = some false ∧ chars.isSome))
    (h5 : size = 0 ∨ chars = some 0 ∨
      (download_complete st ∧ st.currentContent.length ≤ st.currentContentOffset)) :
    read cfg st size chars = ⟨.ok (emptyData cfg), st, []⟩ := by
  unfold read
  rw [if_neg h1, if_neg h2, if_neg h3, if_neg h4, if_pos h5]

theorem read_go {cfg : Cfg} {st : DLState} {size : Int} {chars : Option Int}
    (h1 : ¬(size > -1 ∧ chars.isSome)) (h2 : ¬(¬cfg.encoding ∧ chars.isSome))
    (h3 : ¬(st.textMode = some true ∧ size > -1))
    (h4 : ¬(st.textMode = some false ∧ chars.isSome))
    (h5 : ¬(size = 0 ∨ chars = some 0 ∨
      (download_complete st ∧ st.currentContent.length ≤ st.currentContentOffset)))
    {st1 : DLState} {tm : Bool} {limit : Int}
    (hst1 : st1 = read_mode cfg st chars)
    (htm : tm = decide (st1.textMode = some true))
    (hlim : limit = read_limit tm size chars) :
    read cfg st size chars =
      (if limit - buf_len st1 limit > 0 ∧ ¬download_complete (buf_state st1 limit) then
        read_dl cfg (buf_state st1 limit) (buf_take st1 limit) tm
          (decide (limit = (MAXSIZE : Int))) (limit - buf_len st1 limit)
      else
        ⟨.ok (if tm then .text (buf_take st1 limit)
              else if cfg.encoding then .text (cfg.decode (buf_take st1 limit))
              else .bytes (buf_take st1 limit)),
          buf_state st1 limit, []⟩) := by
  subst hst1
  subst htm
  subst hlim
  unfold read
  rw [if_neg h1, if_neg h2, if_neg h3, if_neg h4, if_neg h5]

theorem read_dl_readall {cfg : Cfg} {st2 : DLState} {buffer0 : List Nat}
    {tm isReadall : Bool} {remaining : Int}
    {pr : List Nat × List Req}
    (hpr : pr = process_chunk_all cfg st2.nonEmptyRanges cfg.maxChunkGetSize
      (st2.downloadStart + st2.size)
      (get_chunk_offsets cfg.maxChunkGetSize (st2.downloadStart + st2.downloadOffset)
        (st2.downloadStart + st2.size)))
    (h : isReadall ∧ ¬tm) :
    read_dl cfg st2 buffer0 tm isReadall remaining =
      ⟨.ok (if cfg.encoding then .text (cfg.decode (buffer0 ++ pr.1))
            else .bytes (buffer0 ++ pr.1)),
        complete_read { st2 with firstChunk := false }, pr.2⟩ := by
  subst hpr
  unfold read_dl
  rw [if_pos h]

theorem read_dl_loop {cfg : Cfg} {st2 : DLState} {buffer0 : List Nat}
    {tm isReadall : Bool} {remaining : Int}
    {r : DLState × List Nat × List Req}
    (hr : r = read_loop cfg tm cfg.maxChunkGetSize (st2.downloadStart + st2.size)
      (get_chunk_offsets cfg.maxChunkGetSize (st2.downloadStart + st2.downloadOffset)
        (st2.downloadStart + st2.size))
      remaining.toNat { st2 with firstChunk := false })
    (h : ¬(isReadall ∧ ¬tm)) :
    read_dl cfg st2 buffer0 tm isReadall remaining =
      ⟨.ok (if tm then .text (buffer0 ++ r.2.1)
            else if cfg.encoding then .text (cfg.decode (buffer0 ++ r.2.1))
            else .bytes (buffer0 ++ r.2.1)),
        r.1, r.2.2⟩ := by
  subst hr
  unfold read_dl
  rw [if_neg h]

/-! ### Stage lemmas for `read` -/

theorem read_mode_state (cfg : Cfg) (st : DLState) (chars : Option Int) :
    (read_mode cfg st chars).downloadOffset = st.downloadOffset ∧
    (read_mode cfg st chars).rawDownloadOffset = st.rawDownloadOffset ∧
    (read_mode cfg st chars).readOffset = st.readOffset ∧
    (read_mode cfg st chars).currentContentOffset = st.currentContentOffset ∧
    (read_mode cfg st chars).size = st.size ∧
    (read_mode cfg st chars).downloadStart = st.downloadStart ∧
    (read_mode cfg st chars).firstChunk = st.firstChunk ∧
    (read_mode cfg st chars).nonEmptyRanges = st.nonEmptyRanges := by
  unfold read_mode
  split_ifs <;> simp

theorem buf_len_le (st1 : DLState) (limit : Int) :
    buf_len st1 limit ≤ st1.currentContent.length - st1.currentContentOffset := by
  unfold buf_len
  omega

theorem buf_rem_pos {st1 : DLState} {limit : Int}
    (h : limit - buf_len st1 limit > 0) :
    st1.currentContentOffset + buf_len st1 limit =
      st1.currentContentOffset + (st1.currentContent.length - st1.currentContentOffset) := by
  unfold buf_len at h ⊢
  omega

/-- Mode fixing preserves the offset invariant (given that the call is not
a bytes-mode chars request — which `read` rejects — and that the facade is
not in the fully-consumed complete state — which `read` returns early
on). -/
theorem read_mode_inv {cfg : Cfg} {st : DLState} {chars : Option Int}
    (hdec : chars.isSome → ∀ l, (cfg.decode l).length ≤ l.length)
    (hInv : Inv st)
    (h4 : ¬(st.textMode = some false ∧ chars.isSome))
    (hne : ¬(download_complete st ∧ st.currentContent.length ≤ st.currentContentOffset)) :
    Inv (read_mode cfg st chars) ∧ (read_mode cfg st chars).textMode ≠ none := by
  unfold read_mode
  split_ifs with ha hb
  · have hnone : st.textMode = none := by
      rcases h : st.textMode with _ | tv
      · rfl
      · cases tv
        · exact absurd ⟨h, ha.2⟩ h4
        · exact absurd h ha.1
    have hfresh := hInv.fresh hnone
    have hcc0 : st.currentContentOffset = 0 ∧ st.readOffset = 0 := by
      rcases hfresh with h | h
      · exact h
      · exact absurd ⟨by simp [download_complete]; omega, by omega⟩ hne
    have hlen : st.currentContent.length = st.downloadOffset := by
      have := hInv.ro_eq (by rw [hnone]; simp)
      omega
    refine ⟨⟨hInv.raw_eq, hInv.dl_le, by simp; omega, ?_, ?_, ?_⟩, by simp⟩
    · simp
      have := hdec ha.2 st.currentContent
      omega
    · intro hcontra
      simp at hcontra
    · intro hcontra
      simp at hcontra
  · refine ⟨⟨hInv.raw_eq, hInv.dl_le, hInv.cc_le, hInv.ro_le, ?_, ?_⟩, by simp⟩
    · intro _
      exact hInv.ro_eq (by rw [hb]; simp)
    · intro hcontra
      simp at hcontra
  · exact ⟨hInv, hb⟩

/-- The buffered-chunk stage preserves the offset invariant. -/
theorem buf_state_inv {st1 : DLState} {limit : Int} (hInv : Inv st1)
    (htmn : st1.textMode ≠ none) :
    Inv (buf_state st1 limit) := by
  have hbl := buf_len_le st1 limit
  refine ⟨hInv.raw_eq, hInv.dl_le, ?_, ?_, ?_, ?_⟩
  · simp [buf_state]
    have := hInv.cc_le
    omega
  · simp [buf_state]
    have := hInv.ro_le
    omega
  · intro htm
    simp [buf_state] at htm ⊢
    have := hInv.ro_eq htm
    omega
  · intro hcontra
    simp [buf_state] at hcontra
    exact absurd hcontra htmn

/-- The download stage preserves the offset invariant, never decreases the
read offset, and leaves the window size unchanged. -/
theorem read_dl_inv {cfg : Cfg} {st2 : DLState} {buffer0 : List Nat}
    {tm isReadall : Bool} {remaining : Int}
    (hdec : tm = true → ∀ l, (cfg.decode l).length ≤ l.length)
    (hInv : Inv st2)
    (htm : st2.textMode = some true ↔ tm = true)
    (htmn : st2.textMode ≠ none)
    (hccfull : st2.currentContentOffset = st2.currentContent.length) :
    Inv (read_dl cfg st2 buffer0 tm isReadall remaining).state ∧
    st2.readOffset ≤ (read_dl cfg st2 buffer0 tm isReadall remaining).state.readOffset ∧
    (read_dl cfg st2 buffer0 tm isReadall remaining).state.size = st2.size := by
  by_cases hra : isReadall ∧ ¬tm
  · rw [read_dl_readall rfl hra]
    have hro2 : st2.readOffset ≤ st2.size := by
      have := hInv.ro_le
      have := hInv.dl_le
      omega
    refine ⟨⟨?_, ?_, ?_, ?_, ?_, ?_⟩, ?_, ?_⟩
    · simp [complete_read]
    · simp [complete_read]
    · simp [complete_read]
    · simp [complete_read]
    · intro _
      simp [complete_read]
    · intro hcontra
      simp [complete_read] at hcontra
      exact absurd hcontra htmn
    · simp [complete_read]
      exact hro2
    · simp [complete_read]
  · rw [read_dl_loop rfl hra]
    dsimp only
    by_cases hcs : 0 < cfg.maxChunkGetSize
    · have hmem : ∀ o ∈ get_chunk_offsets cfg.maxChunkGetSize
          (st2.downloadStart + st2.downloadOffset) (st2.downloadStart + st2.size),
          o < st2.downloadStart + st2.size := by
        intro o ho
        exact (get_chunk_offsets_mem hcs ho).2
      have hls := @read_loop_state cfg tm cfg.maxChunkGetSize
        (st2.downloadStart + st2.size) hdec hcs
        (get_chunk_offsets cfg.maxChunkGetSize (st2.downloadStart + st2.downloadOffset)
          (st2.downloadStart + st2.size))
        remaining.toNat { st2 with firstChunk := false }
        (by simpa using hmem)
        (by simp; exact hInv.raw_eq)
        (by simp; have := hInv.cc_le; omega)
        (by simp; have := hInv.ro_le; omega)
        (by intro htmf; simp
            apply hInv.ro_eq
            intro hcontra
            have hct := htm.mp hcontra
            rw [hct] at htmf
            exact Bool.noConfusion htmf)
        (by intro _; simp; exact hccfull)
      obtain ⟨i1, i2, i3, i4, i5, i6, i7, i8, i9, i10, i11, i12⟩ := hls
      simp only [] at i2 i6 i8 i10
      rw [show ({ st2 with firstChunk := false } : DLState).downloadOffset =
        st2.downloadOffset from rfl] at i2
      rw [show ({ st2 with firstChunk := false } : DLState).readOffset =
        st2.readOffset from rfl] at i6
      rw [show ({ st2 with firstChunk := false } : DLState).size = st2.size from rfl] at i8
      rw [show ({ st2 with firstChunk := false } : DLState).textMode =
        st2.textMode from rfl] at i10
      have hsum := sum_range_chunk_offsets (b := st2.downloadStart + st2.size) hcs
        (st2.downloadStart + st2.downloadOffset)
      have hdl2 : st2.downloadOffset ≤ st2.size := hInv.dl_le
      refine ⟨⟨i1, ?_, i3, i4, ?_, ?_⟩, ?_, ?_⟩
      · rw [hsum] at i2
        omega
      · intro htmne
        apply i5
        rw [i10] at htmne
        cases htmv : tm
        · rfl
        · exact absurd (htm.mpr htmv) htmne
      · intro hcontra
        rw [i10] at hcontra
        exact absurd hcontra htmn
      · exact i6
      · exact i8
    · have hnil : get_chunk_offsets cfg.maxChunkGetSize
          (st2.downloadStart + st2.downloadOffset) (st2.downloadStart + st2.size) = [] :=
        get_chunk_offsets_nil (by omega)
      rw [hnil, read_loop_nil]
      refine ⟨⟨?_, ?_, ?_, ?_, ?_, ?_⟩, ?_, ?_⟩
      · simp
        exact hInv.raw_eq
      · simp
        exact hInv.dl_le
      · simp
        exact hInv.cc_le
      · simp
        exact hInv.ro_le
      · intro htmne
        simp at htmne ⊢
        exact hInv.ro_eq htmne
      · intro hcontra
        simp at hcontra
        exact absurd hcontra htmn
      · simp
      · simp

/-- `read` preserves the offset invariant, never decreases the read
offset, and leaves the window size unchanged — for every argument
combination, both modes included. -/
theorem read_inv {cfg : Cfg} (hdec : ∀ l, (cfg.decode l).length ≤ l.length)
    {st : DLState} (hInv : Inv st) (size : Int) (chars : Option Int) :
    Inv (read cfg st size chars).state ∧
    st.readOffset ≤ (read cfg st size chars).state.readOffset ∧
    (read cfg st size chars).state.size = st.size := by
  by_cases h1 : size > -1 ∧ chars.isSome
  · rw [read_err_both h1]
    exact ⟨hInv, le_refl _, rfl⟩
  by_cases h2 : ¬cfg.encoding ∧ chars.isSome
  · rw [read_err_enc h1 h2]
    exact ⟨hInv, le_refl _, rfl⟩
  by_cases h3 : st.textMode = some true ∧ size > -1
  · rw [read_err_text h1 h2 h3]
    exact ⟨hInv, le_refl _, rfl⟩
  by_cases h4 : st.textMode = some false ∧ chars.isSome
  · rw [read_err_bytes h1 h2 h3 h4]
    exact ⟨hInv, le_refl _, rfl⟩
  by_cases h5 : size = 0 ∨ chars = some 0 ∨
      (download_complete st ∧ st.currentContent.length ≤ st.currentContentOffset)
  · rw [read_empty h1 h2 h3 h4 h5]
    exact ⟨hInv, le_refl _, rfl⟩
  rw [read_go h1 h2 h3 h4 h5 rfl rfl rfl]
  have hne : ¬(download_complete st ∧ st.currentContent.length ≤ st.currentContentOffset) :=
    fun hc => h5 (Or.inr (Or.inr hc))
  obtain ⟨hInv1, htmn1⟩ := read_mode_inv (fun _ => hdec) hInv h4 hne
  obtain ⟨m1, m2, m3, m4, m5, m6, m7, m8⟩ := read_mode_state cfg st chars
  set M := read_mode cfg st chars with hM
  set L := read_limit (decide (M.textMode = some true)) size chars with hL
  have hInv2 := @buf_state_inv M L hInv1 htmn1
  by_cases h6 : L - buf_len M L > 0 ∧ ¬download_complete (buf_state M L)
  · rw [if_pos h6]
    have hccfull : (buf_state M L).currentContentOffset =
        (buf_state M L).currentContent.length := by
      have hrp := buf_rem_pos h6.1
      have hcl := hInv1.cc_le
      simp [buf_state]
      omega
    have hdli := @read_dl_inv cfg (buf_state M L) (buf_take M L)
      (decide (M.textMode = some true)) (decide (L = (MAXSIZE : Int)))
      (L - buf_len M L) (fun _ => hdec) hInv2
      (by simp [buf_state])
      (by simp [buf_state]; exact htmn1)
      hccfull
    have hb1 : (buf_state M L).readOffset = st.readOffset + buf_len M L := by
      simp [buf_state, m3]
    have hb2 : (buf_state M L).size = st.size := by
      simp [buf_state, m5]
    refine ⟨hdli.1, ?_, ?_⟩
    · have := hdli.2.1
      omega
    · have := hdli.2.2
      omega
  · rw [if_neg h6]
    dsimp only
    have hb1 : (buf_state M L).readOffset = st.readOffset + buf_len M L := by
      simp [buf_state, m3]
    have hb2 : (buf_state M L).size = st.size := by
      simp [buf_state, m5]
    exact ⟨hInv2, by omega, hb2⟩

/-! ### The initial state satisfies the invariants -/

theorem initial_request_ok {cfg : Cfg} (h : ¬cfg.blob.length ≤ init_s0 cfg) :
    initial_request cfg =
      .ok (init_state cfg, [Req.range (init_s0 cfg) (init_e0 cfg)] ++ init_page_reqs cfg) := by
  unfold initial_request
  rw [if_neg h]

theorem initial_request_fallback {cfg : Cfg} (hs : cfg.startRange = none)
    (h : cfg.blob.length ≤ init_s0 cfg) :
    initial_request cfg =
      .ok (init_fallback_state cfg,
        [Req.range (init_s0 cfg) (init_e0 cfg), Req.plain] ++ init_page_reqs cfg) := by
  unfold initial_request
  rw [if_pos h, hs]

theorem initial_request_416 {cfg : Cfg} {s : Nat} (hs : cfg.startRange = some s)
    (h : cfg.blob.length ≤ init_s0 cfg) :
    initial_request cfg = .error 416 := by
  unfold initial_request
  rw [if_pos h, hs]

theorem init_size_pos {cfg : Cfg} (h : ¬cfg.blob.length ≤ init_s0 cfg) :
    0 < init_size cfg := by
  unfold init_size
  rcases he : cfg.endRange with _ | e
  · rcases hs : cfg.startRange with _ | s
    · have h0 : init_s0 cfg = 0 := by simp [init_s0, hs]
      simp only [hs]
      omega
    · have h0 : init_s0 cfg = s := by simp [init_s0, hs]
      simp only [hs]
      omega
  · simp only []
    omega

theorem init_body_le_size {cfg : Cfg} (h : ¬cfg.blob.length ≤ init_s0 cfg) :
    (init_body cfg).length ≤ init_size cfg := by
  unfold init_body init_size init_e0 slice
  simp only [List.length_take, List.length_drop]
  rcases he : cfg.endRange with _ | e
  · rcases hs : cfg.startRange with _ | s
    · have h0 : init_s0 cfg = 0 := by simp [init_s0, hs]
      simp only [hs]
      omega
    · have h0 : init_s0 cfg = s := by simp [init_s0, hs]
      simp only [hs]
      omega
  · simp only []
    split_ifs with hfit <;> omega

theorem init_win_le {cfg : Cfg} (h : ¬cfg.blob.length ≤ init_s0 cfg) :
    init_s0 cfg + init_size cfg ≤ cfg.blob.length := by
  unfold init_size
  rcases he : cfg.endRange with _ | e
  · rcases hs : cfg.startRange with _ | s
    · have h0 : init_s0 cfg = 0 := by simp [init_s0, hs]
      simp only [hs]
      omega
    · have h0 : init_s0 cfg = s := by simp [init_s0, hs]
      simp only [hs]
      omega
  · simp only []
    omega

theorem init_body_eq {cfg : Cfg} :
    init_body cfg =
      slice cfg.blob (init_s0 cfg) (init_s0 cfg + (init_body cfg).length) := by
  unfold init_body slice
  simp only [List.length_take, List.length_drop]
  rw [List.take_eq_take]
  simp

/-- A successful initial request establishes the offset invariant. -/
theorem initial_inv {cfg : Cfg} {st : DLState} {reqs : List Req}
    (hok : initial_request cfg = .ok (st, reqs)) : Inv st := by
  by_cases hb : cfg.blob.length ≤ init_s0 cfg
  · rcases hs : cfg.startRange with _ | s
    · rw [initial_request_fallback hs hb] at hok
      have hpair := Except.ok.inj hok
      have hst : init_fallback_state cfg = st := congrArg Prod.fst hpair
      subst hst
      refine ⟨rfl, by simp [init_fallback_state], by simp [init_fallback_state],
        by simp [init_fallback_state], fun _ => rfl, fun _ => Or.inl ⟨rfl, rfl⟩⟩
    · rw [initial_request_416 hs hb] at hok
      exact Except.noConfusion hok
  · rw [initial_request_ok hb] at hok
    have hpair := Except.ok.inj hok
    have hst : init_state cfg = st := congrArg Prod.fst hpair
    subst hst
    have hpos := init_size_pos hb
    have hcur : (if init_size cfg = 0 then ([] : List Nat) else init_body cfg) =
        init_body cfg := by
      rw [if_neg (by omega)]
    have hble := init_body_le_size hb
    refine ⟨?_, ?_, ?_, ?_, ?_, ?_⟩
    · simp only [init_state]
      rw [hcur]
    · simp only [init_state]
      rw [hcur]
      exact hble
    · simp [init_state]
    · simp [init_state]
    · intro _
      simp [init_state]
    · intro _
      left
      simp [init_state]

/-- A successful initial request establishes the bytes-mode content
invariant (given a truthful page-range map). -/
theorem initial_cinv {cfg : Cfg} {st : DLState} {reqs : List Req}
    (hsp : SparseOk cfg cfg.pageRanges)
    (hok : initial_request cfg = .ok (st, reqs)) : CInv cfg st := by
  have hspr : SparseOk cfg (init_ranges cfg) := by
    intro rs hrs
    unfold init_ranges at hrs
    by_cases hp : cfg.isPageBlob
    · rw [if_pos hp] at hrs
      exact hsp rs hrs
    · rw [if_neg hp] at hrs
      exact Option.noConfusion hrs
  by_cases hb : cfg.blob.length ≤ init_s0 cfg
  · rcases hs : cfg.startRange with _ | s
    · rw [initial_request_fallback hs hb] at hok
      have hpair := Except.ok.inj hok
      have hst : init_fallback_state cfg = st := congrArg Prod.fst hpair
      subst hst
      refine ⟨⟨?_, ?_, ?_, ?_, ?_, ?_⟩, ?_, ?_, ?_, ?_, ?_, ?_⟩
      · rfl
      · simp [init_fallback_state]
      · simp [init_fallback_state]
      · simp [init_fallback_state]
      · intro _
        rfl
      · intro _
        left
        exact ⟨rfl, rfl⟩
      · simp [init_fallback_state]
      · simp [init_fallback_state]
      · simpa [init_fallback_state] using hspr
      · simp [init_fallback_state]
      · intro _
        simp [init_fallback_state, slice]
      · intro _
        rfl
    · rw [initial_request_416 hs hb] at hok
      exact Except.noConfusion hok
  · rw [initial_request_ok hb] at hok
    have hpair := Except.ok.inj hok
    have hst : init_state cfg = st := congrArg Prod.fst hpair
    subst hst
    have hpos := init_size_pos hb
    have hcur : (if init_size cfg = 0 then ([] : List Nat) else init_body cfg) =
        init_body cfg := by
      rw [if_neg (by omega)]
    have hble := init_body_le_size hb
    refine ⟨⟨?_, ?_, ?_, ?_, ?_, ?_⟩, ?_, ?_, ?_, ?_, ?_, ?_⟩
    · simp only [init_state]
      rw [hcur]
    · simp only [init_state]
      rw [hcur]
      exact hble
    · simp [init_state]
    · simp [init_state]
    · intro _
      simp [init_state]
    · intro _
      left
      simp [init_state]
    · simp [init_state]
    · simpa [init_state, hcur] using init_win_le hb
    · simpa [init_state] using hspr
    · simp [init_state]
    · intro _
      simp [init_state, hcur]
      exact init_body_eq
    · intro _
      simp [init_state]

/-- Every state reachable through the initial request and `read` calls
satisfies the offset invariant. -/
theorem reach_inv {cfg : Cfg} (hdec : ∀ l, (cfg.decode l).length ≤ l.length)
    {st : DLState} (h : ReadReach cfg st) : Inv st := by
  induction h with
  | init st reqs hok => exact initial_inv hok
  | step st n c hr ih => exact (read_inv hdec ih n c).1

/-- C2: after any sequence of `read` calls on a download session,
`read_offset` is non-decreasing and never exceeds `download_offset`,
which never exceeds `total_size` (`self.size`); and
`current_content_offset` never exceeds the length of the currently
buffered chunk.  (`hdec` states that the configured decoder never
produces more units than the bytes it consumes.) -/
theorem C2_offset_monotonicity {cfg : Cfg}
    (hdec : ∀ l, (cfg.decode l).length ≤ l.length)
    {st : DLState} (hreach : ReadReach cfg st) (size : Int) (chars : Option Int) :
    st.readOffset ≤ (read cfg st size chars).state.readOffset ∧
    (read cfg st size chars).state.readOffset ≤
      (read cfg st size chars).state.downloadOffset ∧
    (read cfg st size chars).state.downloadOffset ≤ st.size ∧
    (read cfg st size chars).state.currentContentOffset ≤
      (read cfg st size chars).state.currentContent.length := by
  have hInv := reach_inv hdec hreach
  obtain ⟨hI, hm, hs⟩ := read_inv hdec hInv size chars
  refine ⟨hm, ?_, ?_, hI.cc_le⟩
  · have := hI.ro_le
    omega
  · have := hI.dl_le
    omega

theorem C2_offset_monotonicity_witness :
    wst.readOffset ≤ (read wcfg wst 2 none).state.readOffset ∧
    (read wcfg wst 2 none).state.readOffset ≤
      (read wcfg wst 2 none).state.downloadOffset ∧
    (read wcfg wst 2 none).state.downloadOffset ≤ wst.size ∧
    (read wcfg wst 2 none).state.currentContentOffset ≤
      (read wcfg wst 2 none).state.currentContent.length :=
  C2_offset_monotonicity (fun l => le_refl l.length)
    (ReadReach.init wst [Req.range 0 3] (by decide)) 2 none

/-- A bytes-mode `read` call (no chars requested) preserves the content
invariant. -/
theorem read_cinv {cfg : Cfg} {st : DLState} (hC : CInv cfg st) (n : Int) :
    CInv cfg (read cfg st n none).state := by
  have hInv := hC.inv
  have h1 : ¬(n > -1 ∧ (none : Option Int).isSome) := by simp
  have h2 : ¬(¬cfg.encoding ∧ (none : Option Int).isSome) := by simp
  have h3 : ¬(st.textMode = some true ∧ n > -1) := fun hx => hC.notext hx.1
  have h4 : ¬(st.textMode = some false ∧ (none : Option Int).isSome) := by simp
  by_cases h5 : n = 0 ∨ (none : Option Int) = some 0 ∨
      (download_complete st ∧ st.currentContent.length ≤ st.currentContentOffset)
  · rw [read_empty h1 h2 h3 h4 h5]
    exact hC
  rw [read_go h1 h2 h3 h4 h5 rfl rfl rfl]
  have hne : ¬(download_complete st ∧ st.currentContent.length ≤ st.currentContentOffset) :=
    fun hc => h5 (Or.inr (Or.inr hc))
  obtain ⟨hInv1, htmn1⟩ := read_mode_inv (fun hx => by simp at hx) hInv h4 hne
  obtain ⟨m1, m2, m3, m4, m5, m6, m7, m8⟩ := read_mode_state cfg st none
  have hm_cur : (read_mode cfg st none).currentContent = st.currentContent := by
    unfold read_mode
    rw [if_neg (by simp)]
    split_ifs <;> rfl
  have hm_tm : (read_mode cfg st none).textMode ≠ some true := by
    unfold read_mode
    rw [if_neg (by simp)]
    split_ifs with hx
    · simp
    · exact hC.notext
  set M := read_mode cfg st none with hM
  set L := read_limit (decide (M.textMode = some true)) n none with hL
  have htmf : (decide (M.textMode = some true)) = false := decide_eq_false hm_tm
  have hCM : CInv cfg M :=
    { inv := hInv1, notext := hm_tm,
      win_le := by rw [m6, m5]; exact hC.win_le,
      sparse := by rw [m8]; exact hC.sparse,
      cur_le := by rw [hm_cur, m1]; exact hC.cur_le,
      content := by
        rw [hm_cur, m4, m7, m6, m1]
        exact hC.content,
      first_len := by
        rw [hm_cur, m7, m1]
        exact hC.first_len }
  have hblle := buf_len_le M L
  have hCB : CInv cfg (buf_state M L) :=
    { inv := buf_state_inv hInv1 htmn1,
      notext := by simp [buf_state]; exact hm_tm,
      win_le := by simp [buf_state]; exact hCM.win_le,
      sparse := by simp [buf_state]; exact hCM.sparse,
      cur_le := by simp [buf_state]; exact hCM.cur_le,
      content := by
        simp only [buf_state]
        intro hcond
        refine hCM.content ?_
        rcases hcond with hlt | hfc
        · left
          omega
        · right
          exact hfc,
      first_len := by
        simp only [buf_state]
        exact hCM.first_len }
  by_cases h6 : L - buf_len M L > 0 ∧ ¬download_complete (buf_state M L)
  · rw [if_pos h6]
    have hccfull : (buf_state M L).currentContentOffset =
        (buf_state M L).currentContent.length := by
      have hrp := buf_rem_pos h6.1
      have hcl := hInv1.cc_le
      simp [buf_state]
      omega
    rw [htmf]
    have hBtm : (buf_state M L).textMode ≠ some true := hCB.notext
    have hBtmn : (buf_state M L).textMode ≠ none := by
      simp [buf_state]
      exact htmn1
    by_cases hral : (decide (L = (MAXSIZE : Int))) = true
    · rw [read_dl_readall rfl ⟨hral, by simp⟩]
      refine ⟨⟨?_, ?_, ?_, ?_, ?_, ?_⟩, ?_, ?_, ?_, ?_, ?_, ?_⟩
      · simp [complete_read]
      · simp [complete_read]
      · simp [complete_read]
      · simp [complete_read]
      · intro _
        simp [complete_read]
      · intro hcontra
        simp [complete_read] at hcontra
        exact absurd hcontra hBtmn
      · intro hcontra
        simp [complete_read] at hcontra
        exact absurd hcontra hBtm
      · simp [complete_read]
        exact hCB.win_le
      · simp [complete_read]
        exact hCB.sparse
      · simp [complete_read]
        have h1l := hCB.cur_le
        have h2l := hCB.inv.dl_le
        omega
      · intro hcond
        simp [complete_read] at hcond
      · intro hcond
        simp [complete_read] at hcond
    · rw [read_dl_loop rfl (fun hx => hral hx.1)]
      dsimp only
      by_cases hcs : 0 < cfg.maxChunkGetSize
      · have hmem : ∀ o ∈ get_chunk_offsets cfg.maxChunkGetSize
            ((buf_state M L).downloadStart + (buf_state M L).downloadOffset)
            ((buf_state M L).downloadStart + (buf_state M L).size),
            o < (buf_state M L).downloadStart + (buf_state M L).size := by
          intro o ho
          exact (get_chunk_offsets_mem hcs ho).2
        have hls := @read_loop_state cfg false cfg.maxChunkGetSize
          ((buf_state M L).downloadStart + (buf_state M L).size)
          (fun hx => nomatch hx) hcs
          (get_chunk_offsets cfg.maxChunkGetSize
            ((buf_state M L).downloadStart + (buf_state M L).downloadOffset)
            ((buf_state M L).downloadStart + (buf_state M L).size))
          (L - buf_len M L).toNat { buf_state M L with firstChunk := false }
          (by simpa using hmem)
          (by simp; exact hCB.inv.raw_eq)
          (by simp; have := hCB.inv.cc_le; omega)
          (by simp; have := hCB.inv.ro_le; omega)
          (fun _ => by simp; have := hCB.inv.ro_eq hBtm; omega)
          (fun _ => by simp; exact hccfull)
        have hlc := @read_loop_content cfg cfg.maxChunkGetSize
          ((buf_state M L).downloadStart + (buf_state M L).size) hcs
          (by have := hCB.win_le; omega)
          (get_chunk_offsets cfg.maxChunkGetSize
            ((buf_state M L).downloadStart + (buf_state M L).downloadOffset)
            ((buf_state M L).downloadStart + (buf_state M L).size))
          (L - buf_len M L).toNat { buf_state M L with firstChunk := false }
          (by simp; exact hCB.sparse)
          (by simp)
          (by simp; exact hCB.cur_le)
          (by simp
              intro hcontra
              omega)
        obtain ⟨i1, i2, i3, i4, i5, i6, i7, i8, i9, i10, i11, i12⟩ := hls
        dsimp only at i1 i2 i3 i4 i5 i6 i7 i8 i9 i10 i11 i12 hlc
        have hsum := sum_range_chunk_offsets
          (b := (buf_state M L).downloadStart + (buf_state M L).size) hcs
          ((buf_state M L).downloadStart + (buf_state M L).downloadOffset)
        have hdl2 := hCB.inv.dl_le
        refine ⟨⟨i1, ?_, i3, i4, ?_, ?_⟩, ?_, ?_, ?_, ?_, ?_, ?_⟩
        · rw [hsum] at i2
          omega
        · intro _
          exact i5 rfl
        · intro hcontra
          rw [i10] at hcontra
          exact absurd hcontra hBtmn
        · rw [i10]
          exact hBtm
        · rw [i9, i8]
          exact hCB.win_le
        · rw [i11]
          exact hCB.sparse
        · exact hlc.1
        · intro hcond
          rcases hcond with hlt | hfc
          · exact hlc.2 hlt
          · rw [i12] at hfc
            exact Bool.noConfusion hfc
        · intro hfc
          rw [i12] at hfc
          exact Bool.noConfusion hfc
      · rw [get_chunk_offsets_nil (by omega), read_loop_nil]
        refine ⟨⟨?_, ?_, ?_, ?_, ?_, ?_⟩, ?_, ?_, ?_, ?_, ?_, ?_⟩
        · simp
          exact hCB.inv.raw_eq
        · simp
          exact hCB.inv.dl_le
        · simp
          exact hCB.inv.cc_le
        · simp
          exact hCB.inv.ro_le
        · intro _
          simp
          exact hCB.inv.ro_eq hBtm
        · intro hcontra
          simp at hcontra
          exact absurd hcontra hBtmn
        · intro hcontra
          simp at hcontra
          exact absurd hcontra hBtm
        · simp
          exact hCB.win_le
        · simp
          exact hCB.sparse
        · simp
          exact hCB.cur_le
        · intro hcond
          simp at hcond
          exact absurd hcond (by omega)
        · intro hfc
          simp at hfc
  · rw [if_neg h6]
    dsimp only
    exact hCB

/-- Every state reachable in a bytes-mode session satisfies the content
invariant (given a truthful page-range map). -/
theorem byte_reach_cinv {cfg : Cfg} (hsp : SparseOk cfg cfg.pageRanges)
    {st : DLState} (h : ByteReach cfg st) : CInv cfg st := by
  induction h with
  | init st reqs hok => exact initial_cinv hsp hok
  | step st n hr ih => exact read_cinv ih n

/-! ### Draining the chunks iterator -/

theorem chunk_iter_take {cfg : Cfg} {ranges : Option (List (Nat × Nat))}
    {cs b : Nat} {offsets current : List Nat} (h : 0 < cs ∧ cs ≤ current.length) :
    chunk_iter cfg ranges cs b offsets current =
      (current.take cs :: (chunk_iter cfg ranges cs b offsets (current.drop cs)).1,
       (chunk_iter cfg ranges cs b offsets (current.drop cs)).2) := by
  rw [chunk_iter.eq_def]
  dsimp only
  rw [dif_pos h]

theorem chunk_iter_nil {cfg : Cfg} {ranges : Option (List (Nat × Nat))}
    {cs b : Nat} {current : List Nat} (h : ¬(0 < cs ∧ cs ≤ current.length)) :
    chunk_iter cfg ranges cs b [] current =
      (if current.isEmpty then [] else [current], []) := by
  rw [chunk_iter.eq_def]
  dsimp only
  rw [dif_neg h]

theorem chunk_iter_fetch {cfg : Cfg} {ranges : Option (List (Nat × Nat))}
    {cs b o : Nat} {rest current : List Nat}
    (h : ¬(0 < cs ∧ cs ≤ current.length))
    {c : List Nat × Nat × List Req} {cur : List Nat}
    (hc : c = yield_chunk cfg ranges cs b o)
    (hcur : cur = current ++ c.1) :
    chunk_iter cfg ranges cs b (o :: rest) current =
      (cur.take cs :: (chunk_iter cfg ranges cs b rest (cur.drop cs)).1,
       c.2.2 ++ (chunk_iter cfg ranges cs b rest (cur.drop cs)).2) := by
  subst hc
  subst hcur
  rw [chunk_iter.eq_def]
  dsimp only
  rw [dif_neg h]

/-- The chunks yielded by a drained iterator concatenate to the initial
buffered content followed by all fetched chunk bodies in offset order. -/
theorem chunk_iter_flatten {cfg : Cfg} {ranges : Option (List (Nat × Nat))}
    {cs b : Nat} :
    ∀ (offsets current : List Nat),
    ((chunk_iter cfg ranges cs b offsets current).1).flatten =
      current ++ (process_chunk_all cfg ranges cs b offsets).1 := by
  intro offsets current
  induction offsets, current using chunk_iter.induct cfg ranges cs b with
  | case1 offsets current hg ih =>
    rw [chunk_iter_take hg]
    rw [List.flatten_cons, ih]
    rw [← List.append_assoc, List.take_append_drop]
  | case2 current hg =>
    rw [chunk_iter_nil hg, process_chunk_all_nil]
    by_cases he : current.isEmpty
    · rw [if_pos he]
      have : current = [] := List.isEmpty_iff.mp he
      simp [this]
    · rw [if_neg he]
      simp
  | case3 current hg o rest cv curv ih =>
    have ih2 : (chunk_iter cfg ranges cs b rest
        ((current ++ (yield_chunk cfg ranges cs b o).1).drop cs)).1.flatten =
        (current ++ (yield_chunk cfg ranges cs b o).1).drop cs ++
          (process_chunk_all cfg ranges cs b rest).1 := ih
    rw [chunk_iter_fetch hg rfl rfl]
    rw [List.flatten_cons, ih2, process_chunk_all_cons]
    rw [← List.append_assoc, List.take_append_drop]
    simp

theorem chunk_iter_local_take {cs : Nat} {current : List Nat}
    (h : 0 < cs ∧ cs < current.length) :
    chunk_iter_local cs current =
      current.take cs :: chunk_iter_local cs (current.drop cs) := by
  rw [chunk_iter_local.eq_def]
  rw [dif_pos h]

theorem chunk_iter_local_last {cs : Nat} {current : List Nat}
    (h : ¬(0 < cs ∧ cs < current.length)) :
    chunk_iter_local cs current = [current] := by
  rw [chunk_iter_local.eq_def]
  rw [dif_neg h]

theorem chunk_iter_local_flatten {cs : Nat} :
    ∀ current : List Nat, (chunk_iter_local cs current).flatten = current := by
  intro current
  induction current using chunk_iter_local.induct cs with
  | case1 current hg ih =>
    rw [chunk_iter_local_take hg, List.flatten_cons, ih, List.take_append_drop]
  | case2 current hg =>
    rw [chunk_iter_local_last hg]
    simp

/-- The full content lemma for an unbounded bytes-mode `read`: it returns
the whole window from the current `read_offset` on (decoded at the end
when an encoding is configured) and leaves the download complete. -/
theorem readall_content {cfg : Cfg} {st : DLState} (hC : CInv cfg st)
    (hcs : 0 < cfg.maxChunkGetSize) (hblob : cfg.blob.length < MAXSIZE)
    (hdec0 : cfg.encoding = true → cfg.decode [] = []) :
    (read cfg st (-1) none).result = .ok
      (if cfg.encoding then
        .text (cfg.decode (slice cfg.blob (st.downloadStart + st.readOffset)
          (st.downloadStart + st.size)))
       else .bytes (slice cfg.blob (st.downloadStart + st.readOffset)
          (st.downloadStart + st.size))) ∧
    download_complete (read cfg st (-1) none).state = true := by
  have hInv := hC.inv
  have h1 : ¬((-1 : Int) > -1 ∧ (none : Option Int).isSome) := by simp
  have h2 : ¬(¬cfg.encoding ∧ (none : Option Int).isSome) := by simp
  have h3 : ¬(st.textMode = some true ∧ (-1 : Int) > -1) := by simp
  have h4 : ¬(st.textMode = some false ∧ (none : Option Int).isSome) := by simp
  have hmax : MAXSIZE = 9223372036854775807 := rfl
  by_cases h5 : (-1 : Int) = 0 ∨ (none : Option Int) = some 0 ∨
      (download_complete st ∧ st.currentContent.length ≤ st.currentContentOffset)
  · rw [read_empty h1 h2 h3 h4 h5]
    have hcomp : download_complete st ∧
        st.currentContent.length ≤ st.currentContentOffset := by
      rcases h5 with h | h | h
      · exact absurd h (by norm_num)
      · exact Option.noConfusion h
      · exact h
    have hcc : st.currentContentOffset = st.currentContent.length := by
      have := hInv.cc_le
      omega
    have hdl : st.downloadOffset = st.size := by
      have hc := hcomp.1
      simp [download_complete] at hc
      have := hInv.raw_eq
      have := hInv.dl_le
      omega
    have hro : st.readOffset = st.size := by
      have := hInv.ro_eq hC.notext
      omega
    have hsl : slice cfg.blob (st.downloadStart + st.readOffset)
        (st.downloadStart + st.size) = [] := by
      apply slice_nil
      omega
    rw [hsl]
    constructor
    · unfold emptyData
      by_cases he : cfg.encoding
      · simp [he, hdec0 he]
      · simp [he]
    · exact hcomp.1
  rw [read_go h1 h2 h3 h4 h5 rfl rfl rfl]
  have hne : ¬(download_complete st ∧ st.currentContent.length ≤ st.currentContentOffset) :=
    fun hc => h5 (Or.inr (Or.inr hc))
  obtain ⟨hInv1, htmn1⟩ := read_mode_inv (fun hx => by simp at hx) hInv h4 hne
  obtain ⟨m1, m2, m3, m4, m5, m6, m7, m8⟩ := read_mode_state cfg st none
  have hm_cur : (read_mode cfg st none).currentContent = st.currentContent := by
    unfold read_mode
    rw [if_neg (by simp)]
    split_ifs <;> rfl
  have hm_tm : (read_mode cfg st none).textMode ≠ some true := by
    unfold read_mode
    rw [if_neg (by simp)]
    split_ifs with hx
    · simp
    · exact hC.notext
  set M := read_mode cfg st none with hM
  have htmf : (decide (M.textMode = some true)) = false := decide_eq_false hm_tm
  rw [htmf]
  have hlim0 : read_limit false (-1) none = ((MAXSIZE : Nat) : Int) := by
    unfold read_limit
    norm_num
  rw [hlim0]
  have hlen_blob : M.currentContent.length ≤ cfg.blob.length := by
    rw [hm_cur]
    have := hC.cur_le
    have := hInv.dl_le
    have := hC.win_le
    omega
  have hbl : buf_len M ((MAXSIZE : Nat) : Int) =
      M.currentContent.length - M.currentContentOffset := by
    unfold buf_len
    omega
  have hbuf0 : buf_take M ((MAXSIZE : Nat) : Int) =
      st.currentContent.drop st.currentContentOffset := by
    unfold buf_take
    rw [hbl, hm_cur, m4]
    apply List.take_of_length_le
    simp
  have hro_eq := hInv.ro_eq hC.notext
  have hbuf0_slice : buf_take M ((MAXSIZE : Nat) : Int) =
      slice cfg.blob (st.downloadStart + st.readOffset)
        (st.downloadStart + st.downloadOffset) := by
    rw [hbuf0]
    by_cases hlt : st.currentContentOffset < st.currentContent.length
    · rw [hC.content (Or.inl hlt)]
      rw [slice_drop]
      congr 1
      have := hInv.cc_le
      have := hC.cur_le
      omega
    · have hcc : st.currentContentOffset = st.currentContent.length := by
        have := hInv.cc_le
        omega
      rw [List.drop_eq_nil_of_le (by omega)]
      rw [slice_nil (by omega)]
  have hcomp2 : download_complete (buf_state M ((MAXSIZE : Nat) : Int)) =
      download_complete st := by
    simp [buf_state, download_complete, m2, m5]
  by_cases h6 : ((MAXSIZE : Nat) : Int) - buf_len M ((MAXSIZE : Nat) : Int) > 0 ∧
      ¬download_complete (buf_state M ((MAXSIZE : Nat) : Int))
  · rw [if_pos h6]
    have hral : (decide (((MAXSIZE : Nat) : Int) = ((MAXSIZE : Nat) : Int))) = true := by
      simp
    rw [read_dl_readall rfl ⟨hral, by simp⟩]
    dsimp only
    have b1 : (buf_state M ((MAXSIZE : Nat) : Int)).nonEmptyRanges = st.nonEmptyRanges := by
      simp [buf_state, m8]
    have b2 : (buf_state M ((MAXSIZE : Nat) : Int)).downloadStart = st.downloadStart := by
      simp [buf_state, m6]
    have b3 : (buf_state M ((MAXSIZE : Nat) : Int)).size = st.size := by
      simp [buf_state, m5]
    have b4 : (buf_state M ((MAXSIZE : Nat) : Int)).downloadOffset = st.downloadOffset := by
      simp [buf_state, m1]
    rw [b1, b2, b3, b4]
    have hfl := process_chunk_all_flatten hC.sparse hcs hC.win_le
      (st.downloadStart + st.downloadOffset)
    constructor
    · rw [hbuf0_slice, hfl]
      rw [slice_append (by omega) (by have := hInv.dl_le; omega)]
    · simp [complete_read, download_complete]
  · rw [if_neg h6]
    dsimp only
    have hcomp : download_complete st = true := by
      by_cases hcp : download_complete st
      · exact hcp
      · exfalso
        apply h6
        constructor
        · rw [hbl]
          have := hInv1.cc_le
          have hmaxv : (MAXSIZE : Nat) = 9223372036854775807 := rfl
          omega
        · rw [hcomp2]
          simp [hcp]
    have hdl : st.downloadOffset = st.size := by
      simp [download_complete] at hcomp
      have := hInv.raw_eq
      have := hInv.dl_le
      omega
    constructor
    · rw [hbuf0_slice, hdl]
      simp
    · rw [hcomp2]
      exact hcomp

/-- Any negative `size` argument is replaced by the unbounded
`sys.maxsize` limit before any data is served, so every negative size
behaves exactly like the default `-1`. -/
theorem read_neg (cfg : Cfg) (st : DLState) (n : Int) (hn : n < 0) :
    read cfg st n none = read cfg st (-1) none := by
  have hlim : ∀ tm : Bool, read_limit tm n none = read_limit tm (-1) none := by
    intro tm
    unfold read_limit
    cases tm
    · simp only [Bool.false_eq_true, if_false]
      rw [if_neg (by omega), if_neg (by omega)]
    · simp
  have hgt : ¬(n > -1) := by omega
  have hne : n ≠ 0 := by omega
  unfold read
  simp only [hlim, hgt, hne]
  norm_num

theorem slice_full {l : List Nat} : slice l 0 l.length = l := by
  simp [slice]

/-- C3: for every download session in bytes mode, regardless of how many
bytes were previously consumed via `read` (any `read_offset`), the
concatenation of all chunks yielded by a single `chunks()` iteration
equals the entire logical window of exactly `size` bytes, re-delivering
already-consumed bytes. -/
theorem C3_chunks_entire_window {cfg : Cfg} (hsp : SparseOk cfg cfg.pageRanges)
    (hcs : 0 < cfg.maxChunkGetSize) {st : DLState} (hreach : ByteReach cfg st) :
    ∃ out, (chunks_drained cfg st).result = .ok out ∧
      out.flatten = window cfg st ∧ out.flatten.length = st.size := by
  have hC := byte_reach_cinv hsp hreach
  have hwinlen : (window cfg st).length = st.size := by
    unfold window
    rw [slice_length hC.win_le (by omega)]
    omega
  unfold chunks_drained
  rw [if_neg hC.notext]
  by_cases hbr : ¬st.firstChunk ∨ ¬download_complete st
  · rw [if_pos hbr]
    by_cases hsz : st.size = 0
    · rw [if_pos hsz]
      refine ⟨[], rfl, ?_, ?_⟩
      · simp [window, slice, hsz]
      · simp [hsz]
    · rw [if_neg hsz]
      dsimp only
      have hflat : ((chunk_iter cfg st.nonEmptyRanges cfg.maxChunkGetSize
          (st.downloadStart + st.size)
          (get_chunk_offsets cfg.maxChunkGetSize
            (if st.firstChunk = true then st.downloadStart + st.currentContent.length
             else st.downloadStart)
            (st.downloadStart + st.size))
          (if st.firstChunk = true then st.currentContent else [])).1).flatten =
          window cfg st := by
        rw [chunk_iter_flatten]
        cases hfc : st.firstChunk
        · rw [if_neg (by simp), if_neg (by simp)]
          rw [process_chunk_all_flatten hC.sparse hcs hC.win_le st.downloadStart]
          simp [window]
        · rw [if_pos rfl, if_pos rfl]
          have hcl := hC.first_len hfc
          have hcontent := hC.content (Or.inr hfc)
          rw [hcl] at hcontent
          rw [hcl]
          rw [process_chunk_all_flatten hC.sparse hcs hC.win_le
            (st.downloadStart + st.downloadOffset)]
          rw [hcontent]
          rw [show st.downloadStart + st.downloadOffset - st.downloadOffset =
            st.downloadStart from by omega]
          unfold window
          exact slice_append (by omega) (by have := hC.inv.dl_le; omega)
      exact ⟨_, rfl, hflat, by rw [hflat]; exact hwinlen⟩
  · rw [if_neg hbr]
    push_neg at hbr
    by_cases hsz : st.size = 0
    · rw [if_pos hsz]
      refine ⟨[], rfl, ?_, ?_⟩
      · simp [window, slice, hsz]
      · simp [hsz]
    · rw [if_neg hsz]
      have hfc : st.firstChunk = true := hbr.1
      have hcompl : download_complete st = true := hbr.2
      have hdl : st.downloadOffset = st.size := by
        simp [download_complete] at hcompl
        have := hC.inv.raw_eq
        have := hC.inv.dl_le
        omega
      have hcl := hC.first_len hfc
      have hcontent := hC.content (Or.inr hfc)
      rw [hcl, hdl] at hcontent
      have hflat : (chunk_iter_local cfg.maxChunkGetSize st.currentContent).flatten =
          window cfg st := by
        rw [chunk_iter_local_flatten, hcontent]
        rw [show st.downloadStart + st.size - st.size = st.downloadStart from by omega]
        rfl
      exact ⟨_, rfl, hflat, by rw [hflat]; exact hwinlen⟩

theorem C3_chunks_entire_window_witness :
    ∃ out, (chunks_drained wcfg ((read wcfg wst 2 none).state)).result = .ok out ∧
      out.flatten = window wcfg ((read wcfg wst 2 none).state) ∧
      out.flatten.length = ((read wcfg wst 2 none).state).size :=
  C3_chunks_entire_window
    (by intro rs h
        rw [show wcfg.pageRanges = none from rfl] at h
        exact Option.noConfusion h)
    (by decide)
    (ByteReach.step wst 2 (ByteReach.init wst [Req.range 0 3] (by decide)))

/-- C8: `readall()` is `read()` with no bound, and for an object of
logical size `S` downloaded with no range restriction, `readall()`
returns exactly the `S` blob bytes (or their decoded equivalent when an
encoding is configured) and leaves the facade in the complete state. -/
theorem C8_readall_roundtrip {cfg : Cfg} (hsp : SparseOk cfg cfg.pageRanges)
    (hcs : 0 < cfg.maxChunkGetSize) (hblob : cfg.blob.length < MAXSIZE)
    (hdec0 : cfg.encoding = true → cfg.decode [] = [])
    (hsr : cfg.startRange = none) (her : cfg.endRange = none) :
    (∀ s, readall cfg s = read cfg s (-1) none) ∧
    ∃ st reqs, initial_request cfg = .ok (st, reqs) ∧
      (readall cfg st).result = .ok
        (if cfg.encoding then .text (cfg.decode cfg.blob) else .bytes cfg.blob) ∧
      download_complete (readall cfg st).state = true := by
  refine ⟨fun s => rfl, ?_⟩
  have hs0 : init_s0 cfg = 0 := by simp [init_s0, hsr]
  by_cases hb : cfg.blob.length ≤ init_s0 cfg
  · refine ⟨init_fallback_state cfg, _, initial_request_fallback hsr hb, ?_⟩
    have hblob0 : cfg.blob = [] := by
      rw [hs0] at hb
      exact List.eq_nil_of_length_eq_zero (by omega)
    have hC := initial_cinv hsp (initial_request_fallback hsr hb)
    have hra := readall_content hC hcs hblob hdec0
    have hp1 : (init_fallback_state cfg).downloadStart = 0 := rfl
    have hp2 : (init_fallback_state cfg).readOffset = 0 := rfl
    have hp3 : (init_fallback_state cfg).size = 0 := rfl
    rw [hp1, hp2, hp3] at hra
    unfold readall
    refine ⟨?_, hra.2⟩
    rw [hra.1]
    rw [slice_nil (by omega), hblob0]
  · refine ⟨init_state cfg, _, initial_request_ok hb, ?_⟩
    have hC := initial_cinv hsp (initial_request_ok hb)
    have hra := readall_content hC hcs hblob hdec0
    have hp1 : (init_state cfg).downloadStart = 0 := by
      simp [init_state, hs0]
    have hp2 : (init_state cfg).readOffset = 0 := rfl
    have hp3 : (init_state cfg).size = cfg.blob.length := by
      simp [init_state, init_size, hsr, her]
    rw [hp1, hp2, hp3] at hra
    unfold readall
    refine ⟨?_, hra.2⟩
    rw [hra.1]
    rw [show (0 : Nat) + 0 = 0 from rfl, show (0 : Nat) + cfg.blob.length =
      cfg.blob.length from by omega, slice_full]

theorem C8_readall_roundtrip_witness :
    (∀ s, readall wcfg s = read wcfg s (-1) none) ∧
    ∃ st reqs, initial_request wcfg = .ok (st, reqs) ∧
      (readall wcfg st).result = .ok
        (if wcfg.encoding then .text (wcfg.decode wcfg.blob) else .bytes wcfg.blob) ∧
      download_complete (readall wcfg st).state = true :=
  C8_readall_roundtrip
    (by intro rs h
        rw [show wcfg.pageRanges = none from rfl] at h
        exact Option.noConfusion h)
    (by decide) (by decide) (fun _ => rfl) rfl rfl

/-- C10: for every negative size argument (not only `-1`), `read(size)` in
bytes mode behaves as an unbounded read-all — the negative value is
replaced by the unbounded limit before any data is served — returning all
remaining bytes of the window and completing the download. -/
theorem C10_negative_size_reads_all {cfg : Cfg} (hsp : SparseOk cfg cfg.pageRanges)
    (hcs : 0 < cfg.maxChunkGetSize) (hblob : cfg.blob.length < MAXSIZE)
    (henc : cfg.encoding = false) {st : DLState} (hreach : ByteReach cfg st)
    (n : Int) (hn : n < 0) :
    read cfg st n none = read cfg st (-1) none ∧
    (read cfg st n none).result = .ok (.bytes (slice cfg.blob
      (st.downloadStart + st.readOffset) (st.downloadStart + st.size))) ∧
    download_complete (read cfg st n none).state = true := by
  have heq := read_neg cfg st n hn
  have hC := byte_reach_cinv hsp hreach
  have hra := readall_content hC hcs hblob
    (fun he => absurd he (by rw [henc]; exact Bool.noConfusion))
  rw [henc] at hra
  simp only [Bool.false_eq_true, if_false] at hra
  exact ⟨heq, by rw [heq]; exact hra.1, by rw [heq]; exact hra.2⟩

theorem C10_negative_size_reads_all_witness :
    read wcfg wst (-7) none = read wcfg wst (-1) none ∧
    (read wcfg wst (-7) none).result = .ok (.bytes (slice wcfg.blob
      (wst.downloadStart + wst.readOffset) (wst.downloadStart + wst.size))) ∧
    download_complete (read wcfg wst (-7) none).state = true :=
  C10_negative_size_reads_all
    (by intro rs h
        rw [show wcfg.pageRanges = none from rfl] at h
        exact Option.noConfusion h)
    (by decide) (by decide) rfl
    (ByteReach.init wst [Req.range 0 3] (by decide)) (-7) (by decide)

/-! ### The concurrent chunk scheduler -/

/-- One scheduler wave preserves the safety invariant. -/
theorem sched_step_inv {mc : Nat} {offsets : List Nat} {s1 s2 : SchedState}
    (hstep : SchedStep s1 s2)
    (h1 : Multiset.card s1.inFlight ≤ mc)
    (h2 : s1.finished + s1.inFlight + (s1.pending : Multiset Nat) =
      (offsets : Multiset Nat)) :
    Multiset.card s2.inFlight ≤ mc ∧
    s2.finished + s2.inFlight + (s2.pending : Multiset Nat) =
      (offsets : Multiset Nat) := by
  cases hstep with
  | wave D hne hle =>
    have hcD : 1 ≤ Multiset.card D := by
      rcases Multiset.empty_or_exists_mem D with h | ⟨a, ha⟩
      · exact absurd h hne
      · have := Multiset.card_pos_iff_exists_mem.mpr ⟨a, ha⟩
        omega
    constructor
    · show Multiset.card (s1.inFlight - D +
        ↑(s1.pending.take (Multiset.card D))) ≤ mc
      rw [Multiset.card_add, Multiset.card_sub hle, Multiset.coe_card]
      have := Multiset.card_le_card hle
      simp only [List.length_take]
      omega
    · show s1.finished + D + (s1.inFlight - D + ↑(s1.pending.take (Multiset.card D))) +
        ↑(s1.pending.drop (Multiset.card D)) = ↑offsets
      rw [← h2]
      have htd : ((s1.pending.take (Multiset.card D) : List Nat) : Multiset Nat) +
          ↑(s1.pending.drop (Multiset.card D)) = ↑s1.pending := by
        rw [show ((s1.pending.take (Multiset.card D) : List Nat) : Multiset Nat) +
          ↑(s1.pending.drop (Multiset.card D)) =
          ↑(s1.pending.take (Multiset.card D) ++ s1.pending.drop (Multiset.card D)) from rfl]
        rw [List.take_append_drop]
      have hfl : s1.inFlight - D + D = s1.inFlight := tsub_add_cancel_of_le hle
      calc s1.finished + D + (s1.inFlight - D + ↑(s1.pending.take (Multiset.card D))) +
            ↑(s1.pending.drop (Multiset.card D))
          = s1.finished + (s1.inFlight - D + D) +
            (↑(s1.pending.take (Multiset.card D)) +
             ↑(s1.pending.drop (Multiset.card D))) := by
              simp only [add_assoc, add_comm, add_left_comm]
        _ = s1.finished + s1.inFlight + ↑s1.pending := by rw [hfl, htd]

/-- Safety invariant of the scheduler loop: at most `mc` fetches are in
flight and the dispatched work is conserved (every offset is either still
pending, in flight, or finished). -/
theorem sched_invariant {offsets : List Nat} {mc : Nat} :
    ∀ s, Relation.ReflTransGen SchedStep (sched_init offsets mc) s →
      Multiset.card s.inFlight ≤ mc ∧
      s.finished + s.inFlight + (s.pending : Multiset Nat) = (offsets : Multiset Nat) := by
  intro s hs
  induction hs with
  | refl =>
    constructor
    · show Multiset.card ((offsets.take mc : List Nat) : Multiset Nat) ≤ mc
      rw [Multiset.coe_card]
      simp
    · show (0 : Multiset Nat) + ↑(offsets.take mc) + ↑(offsets.drop mc) = ↑offsets
      rw [zero_add]
      rw [show ((offsets.take mc : List Nat) : Multiset Nat) + ↑(offsets.drop mc) =
        ↑(offsets.take mc ++ offsets.drop mc) from rfl]
      rw [List.take_append_drop]
  | tail hab hbc ih =>
    exact sched_step_inv hbc ih.1 ih.2

/-- C9: for every download plan and every `max_concurrency ≥ 1`, the
concurrent scheduling loop of the read-all and `readinto` paths keeps at
most `max_concurrency` chunk fetches in flight at any time, dispatches at
most one fetch per chunk offset of the plan, and — absent failure, i.e.
when the loop has drained (nothing in flight, nothing pending) — has
attempted every chunk offset of the plan exactly once. -/
theorem C9_bounded_scheduler {cs a b mc : Nat} (hmc : 1 ≤ mc) (hcs : 0 < cs)
    (s : SchedState)
    (hs : Relation.ReflTransGen SchedStep (sched_init (get_chunk_offsets cs a b) mc) s) :
    Multiset.card s.inFlight ≤ mc ∧
    s.finished + s.inFlight + (s.pending : Multiset Nat) =
      ((get_chunk_offsets cs a b : List Nat) : Multiset Nat) ∧
    (∀ o, Multiset.count o s.finished ≤ 1) ∧
    (s.inFlight = 0 → s.pending = [] →
      s.finished = ((get_chunk_offsets cs a b : List Nat) : Multiset Nat) ∧
      ∀ o ∈ get_chunk_offsets cs a b, Multiset.count o s.finished = 1) := by
  obtain ⟨h1, h2⟩ := sched_invariant s hs
  have hnd : (get_chunk_offsets cs a b).Nodup := get_chunk_offsets_nodup hcs a
  have hcount : ∀ o, Multiset.count o s.finished ≤ 1 := by
    intro o
    have hle : s.finished ≤ s.finished + s.inFlight + ↑s.pending := by
      calc s.finished ≤ s.finished + (s.inFlight + ↑s.pending) := le_add_of_nonneg_right
            (by simp)
        _ = s.finished + s.inFlight + ↑s.pending := (add_assoc ..).symm
    have := Multiset.count_le_of_le o hle
    rw [h2] at this
    have hc1 : Multiset.count o ((get_chunk_offsets cs a b : List Nat) : Multiset Nat) ≤ 1 := by
      rw [Multiset.coe_count]
      exact List.nodup_iff_count_le_one.mp hnd o
    omega
  refine ⟨h1, h2, hcount, ?_⟩
  intro hifl hpend
  rw [hifl, hpend] at h2
  simp at h2
  refine ⟨h2, ?_⟩
  intro o ho
  rw [h2, Multiset.coe_count]
  exact List.count_eq_one_of_mem hnd ho

theorem C9_bounded_scheduler_witness :
    Multiset.card (sched_init (get_chunk_offsets 4 0 10) 3).inFlight ≤ 3 ∧
    (sched_init (get_chunk_offsets 4 0 10) 3).finished +
      (sched_init (get_chunk_offsets 4 0 10) 3).inFlight +
      ((sched_init (get_chunk_offsets 4 0 10) 3).pending : Multiset Nat) =
      ((get_chunk_offsets 4 0 10 : List Nat) : Multiset Nat) ∧
    (∀ o, Multiset.count o (sched_init (get_chunk_offsets 4 0 10) 3).finished ≤ 1) ∧
    ((sched_init (get_chunk_offsets 4 0 10) 3).inFlight = 0 →
      (sched_init (get_chunk_offsets 4 0 10) 3).pending = [] →
      (sched_init (get_chunk_offsets 4 0 10) 3).finished =
        ((get_chunk_offsets 4 0 10 : List Nat) : Multiset Nat) ∧
      ∀ o ∈ get_chunk_offsets 4 0 10,
        Multiset.count o (sched_init (get_chunk_offsets 4 0 10) 3).finished = 1) :=
  C9_bounded_scheduler (by decide) (by decide) _ Relation.ReflTransGen.refl

/-- C5: for every chunk whose wire sub-range `[s, e]` lies entirely
outside the known non-empty ranges of a sparse object, fetching that
chunk performs no network call and produces exactly `content_length` zero
bytes, where `content_length = e - s + 1` is the inclusive length of the
wire sub-range. -/
theorem C5_sparse_skip {cfg : Cfg} (rs : List (Nat × Nat)) (s e : Nat)
    (hout : ∀ r ∈ rs, e < r.1 ∨ r.2 < s) :
    download_chunk cfg (some rs) s e =
      (List.replicate (e + 1 - s) 0, e + 1 - s, ([] : List Req)) := by
  unfold download_chunk
  have hop : do_optimize (some rs) s e = true := by
    simp only [do_optimize, List.all_eq_true, Bool.or_eq_true, decide_eq_true_eq]
    exact hout
  rw [if_pos hop]

theorem C5_sparse_skip_witness :
    download_chunk wcfg (some [(0, 3), (10, 20)]) 5 8 =
      (List.replicate 4 0, 4, ([] : List Req)) :=
  C5_sparse_skip [(0, 3), (10, 20)] 5 8 (by decide)

/-- C6: an empty blob with no requested start range makes the initial
range request fail with 416; the failure is caught, a fallback plain
(property-style) request is made, the window size becomes 0 with empty
buffered content, and `readall()` returns an empty result immediately
with no further requests.  A 416 with a requested start range is
propagated instead. -/
theorem C6_empty_blob_fallback {cfg : Cfg} :
    (cfg.startRange = none → cfg.blob = [] → cfg.isPageBlob = false →
      initial_request cfg = .ok (init_fallback_state cfg,
        [Req.range 0 (init_e0 cfg), Req.plain]) ∧
      (init_fallback_state cfg).size = 0 ∧
      (init_fallback_state cfg).currentContent = [] ∧
      readall cfg (init_fallback_state cfg) =
        ⟨.ok (emptyData cfg), init_fallback_state cfg, []⟩) ∧
    (∀ s, cfg.startRange = some s → cfg.blob.length ≤ s →
      initial_request cfg = .error 416) := by
  constructor
  · intro hs hb hp
    have hs0 : init_s0 cfg = 0 := by simp [init_s0, hs]
    have hlen : cfg.blob.length ≤ init_s0 cfg := by
      rw [hb, hs0]
      simp
    refine ⟨?_, rfl, rfl, ?_⟩
    · rw [initial_request_fallback hs hlen, hs0]
      unfold init_page_reqs
      rw [if_neg (by rw [hp]; exact Bool.noConfusion)]
      rfl
    · unfold readall
      rw [read_empty (by simp) (by simp) (by simp [init_fallback_state])
        (by simp [init_fallback_state])
        (Or.inr (Or.inr ⟨by simp [init_fallback_state, download_complete],
          by simp [init_fallback_state]⟩))]
  · intro s hs hlen
    apply initial_request_416 hs
    rw [show init_s0 cfg = s from by simp [init_s0, hs]]
    exact hlen

theorem C6_empty_blob_fallback_witness :
    (e6cfg.startRange = none → e6cfg.blob = [] → e6cfg.isPageBlob = false →
      initial_request e6cfg = .ok (init_fallback_state e6cfg,
        [Req.range 0 (init_e0 e6cfg), Req.plain]) ∧
      (init_fallback_state e6cfg).size = 0 ∧
      (init_fallback_state e6cfg).currentContent = [] ∧
      readall e6cfg (init_fallback_state e6cfg) =
        ⟨.ok (emptyData e6cfg), init_fallback_state e6cfg, []⟩) ∧
    (∀ s, e6cfg.startRange = some s → e6cfg.blob.length ≤ s →
      initial_request e6cfg = .error 416) :=
  C6_empty_blob_fallback

/-- C7: every usage error — both `size` and `chars` requested, `chars`
without a configured encoding, requesting the mode opposite to the fixed
one, or a non-seekable `readinto` sink with `max_concurrency > 1` —
raises synchronously: the call returns the `ValueError`, issues no
request, and leaves the state (all four offsets included) unchanged. -/
theorem C7_usage_errors {cfg : Cfg} (st : DLState) (sink : List Nat) :
    (∀ n c : Int, n > -1 →
      read cfg st n (some c) = ⟨.error "Cannot specify both size and chars.", st, []⟩) ∧
    (∀ n c : Int, n ≤ -1 → cfg.encoding = false →
      read cfg st n (some c) = ⟨.error "Must specify encoding to read chars.", st, []⟩) ∧
    (∀ n : Int, n > -1 → st.textMode = some true →
      read cfg st n none =
        ⟨.error "Stream has been partially read in text mode. Please use chars.", st, []⟩) ∧
    (∀ n c : Int, n ≤ -1 → cfg.encoding = true → st.textMode = some false →
      read cfg st n (some c) =
        ⟨.error "Stream has been partially read in bytes mode. Please use size.", st, []⟩) ∧
    (st.textMode ≠ some true → 1 < cfg.maxConcurrency →
      readinto cfg st sink false =
        ⟨.error "Target stream handle must be seekable.", st, sink, []⟩) := by
  refine ⟨?_, ?_, ?_, ?_, ?_⟩
  · intro n c hn
    exact read_err_both ⟨hn, rfl⟩
  · intro n c hn henc
    exact read_err_enc (by simp; omega) ⟨by simp [henc], rfl⟩
  · intro n hn htm
    exact read_err_text (by simp) (by simp) ⟨htm, hn⟩
  · intro n c hn henc htm
    exact read_err_bytes (by simp; omega) (by simp [henc]) (by simp; omega) ⟨htm, rfl⟩
  · intro htm hmc
    unfold readinto
    rw [if_neg htm, if_pos ⟨hmc, by simp⟩]

theorem C7_usage_errors_witness :
    read wcfg wst 3 (some 1) = ⟨.error "Cannot specify both size and chars.", wst, []⟩ ∧
    read wcfg wst (-1) (some 1) =
      ⟨.error "Must specify encoding to read chars.", wst, []⟩ ∧
    read { wcfg with maxConcurrency := 2 }
        { wst with textMode := some true } 3 none =
      ⟨.error "Stream has been partially read in text mode. Please use chars.",
        { wst with textMode := some true }, []⟩ ∧
    read { wcfg with encoding := true } { wst with textMode := some false } (-1) (some 1) =
      ⟨.error "Stream has been partially read in bytes mode. Please use size.",
        { wst with textMode := some false }, []⟩ ∧
    readinto { wcfg with maxConcurrency := 2 } wst [] false =
      ⟨.error "Target stream handle must be seekable.", wst, [], []⟩ :=
  ⟨(C7_usage_errors wst []).1 3 1 (by decide),
   (C7_usage_errors wst []).2.1 (-1) 1 (by decide) rfl,
   (C7_usage_errors { wst with textMode := some true } []).2.2.1 3 (by decide) rfl,
   (C7_usage_errors { wst with textMode := some false } []).2.2.2.1 (-1) 1 (by decide)
     rfl rfl,
   (C7_usage_errors wst []).2.2.2.2 (by decide) (by decide)⟩

/-! ### C1: terminal state -/

/-- C1: counterexample.  A genuine session state that is terminal in the
spec's sense — `download_offset = total_size` immediately after the
initial request — from which `read` still returns the three buffered
bytes and `readinto` still returns 3 and writes them to the sink, because
the buffered chunk has not been consumed yet.  Completeness does imply
that no further network request is issued, but not that subsequent calls
return no data. -/
theorem C1_complete_counterexample :
    initial_request c1cfg = .ok (c1st, [Req.range 0 3]) ∧
    download_complete c1st = true ∧
    c1st.downloadOffset = c1st.size ∧
    (read c1cfg c1st (-1) none).reqs = [] ∧
    (read c1cfg c1st (-1) none).result = .ok (.bytes [1, 2, 3]) ∧
    (readinto c1cfg c1st [] true).result = .ok 3 ∧
    (readinto c1cfg c1st [] true).sink = [1, 2, 3] := by
  decide

/-- C1: amended.  Under the offset invariant the terminal condition
`_download_complete` holds exactly when `download_offset = total_size`,
and a complete download never issues another network request from `read`
or `readinto`; but the calls return no data only under the stronger
condition that the buffered chunk is also fully consumed (for `read`,
which then returns the empty result and leaves the state untouched) or
that `read_offset` has reached the size (for `readinto`, which then
returns 0 and writes nothing). -/
theorem C1_complete_amended {cfg : Cfg} {st : DLState} (hInv : Inv st) :
    (download_complete st = true ↔ st.downloadOffset = st.size) ∧
    (download_complete st = true → ∀ n c, (read cfg st n c).reqs = []) ∧
    (download_complete st = true → ∀ sink sk, (readinto cfg st sink sk).reqs = []) ∧
    (download_complete st = true → st.currentContent.length ≤ st.currentContentOffset →
      read cfg st (-1) none = ⟨.ok (emptyData cfg), st, []⟩) ∧
    (st.size ≤ st.readOffset → st.textMode ≠ some true →
      ∀ sink, readinto cfg st sink true = ⟨.ok 0, st, sink, []⟩) := by
  have hraw := hInv.raw_eq
  have hdl := hInv.dl_le
  refine ⟨?_, ?_, ?_, ?_, ?_⟩
  · unfold download_complete
    simp only [decide_eq_true_eq]
    omega
  · intro hc n c
    have hcs : st.size ≤ st.rawDownloadOffset := by
      unfold download_complete at hc
      exact of_decide_eq_true hc
    by_cases h1 : n > -1 ∧ c.isSome
    · rw [read_err_both h1]
    · by_cases h2 : ¬cfg.encoding ∧ c.isSome
      · rw [read_err_enc h1 h2]
      · by_cases h3 : st.textMode = some true ∧ n > -1
        · rw [read_err_text h1 h2 h3]
        · by_cases h4 : st.textMode = some false ∧ c.isSome
          · rw [read_err_bytes h1 h2 h3 h4]
          · by_cases h5 : n = 0 ∨ c = some 0 ∨
              (download_complete st ∧ st.currentContent.length ≤ st.currentContentOffset)
            · rw [read_empty h1 h2 h3 h4 h5]
            · rw [read_go h1 h2 h3 h4 h5 rfl rfl rfl]
              have hm := read_mode_state cfg st c
              have hcomp : download_complete (buf_state (read_mode cfg st c)
                  (read_limit (decide ((read_mode cfg st c).textMode = some true))
                    n c)) = true := by
                unfold download_complete
                show decide ((read_mode cfg st c).size ≤
                  (read_mode cfg st c).rawDownloadOffset) = true
                rw [decide_eq_true_eq, hm.2.2.2.2.1, hm.2.1]
                exact hcs
              rw [if_neg (fun hand => hand.2 hcomp)]
  · intro hc sink sk
    unfold readinto
    dsimp only
    split_ifs <;> try rfl
    rename_i h4
    exact absurd hc h4
  · intro hc hcc
    rw [read_empty (by simp) (by simp) (by simp) (by simp)
      (Or.inr (Or.inr ⟨hc, hcc⟩))]
  · intro hro htm sink
    unfold readinto
    rw [if_neg htm, if_neg (fun h => h.2 rfl)]
    dsimp only
    rw [if_pos (by omega : (st.size : Int) - st.readOffset ≤ 0)]

theorem C1_complete_amended_witness :
    (download_complete c1st = true ↔ c1st.downloadOffset = c1st.size) ∧
    (download_complete c1st = true → ∀ n c, (read c1cfg c1st n c).reqs = []) ∧
    (download_complete c1st = true →
      ∀ sink sk, (readinto c1cfg c1st sink sk).reqs = []) ∧
    (download_complete c1st = true →
      c1st.currentContent.length ≤ c1st.currentContentOffset →
      read c1cfg c1st (-1) none = ⟨.ok (emptyData c1cfg), c1st, []⟩) ∧
    (c1st.size ≤ c1st.readOffset → c1st.textMode ≠ some true →
      ∀ sink, readinto c1cfg c1st sink true = ⟨.ok 0, c1st, sink, []⟩) :=
  C1_complete_amended
    ⟨by decide, by decide, by decide, by decide, by decide, by decide⟩

/-! ### C4: zero reads -/

/-- C4: counterexample.  In a session that was partially read in text
mode — a state reached from the initial request by a single one-char
read — `read(0)` does not return an empty result: it raises the
text-mode usage `ValueError`.  So zero reads are not empty-returning in
every stream state. -/
theorem C4_zero_read_counterexample :
    ReadReach c4cfg ((read c4cfg wst (-1) (some 1)).state) ∧
    (read c4cfg ((read c4cfg wst (-1) (some 1)).state) 0 none).result =
      .error "Stream has been partially read in text mode. Please use chars." :=
  ⟨ReadReach.step wst (-1) (some 1)
    (ReadReach.init wst [Req.range 0 3] (by decide)), by decide⟩

/-- C4: amended.  Zero reads never move the facade state and never issue
a network request, in either form; and they do return the empty result
whenever the call passes the mode checks — `read(0)` unless the stream is
already in text mode, `read(chars=0)` when an encoding is configured and
the stream is not already in bytes mode. -/
theorem C4_zero_read_amended (cfg : Cfg) (st : DLState) :
    ((read cfg st 0 none).state = st ∧ (read cfg st 0 none).reqs = []) ∧
    ((read cfg st (-1) (some 0)).state = st ∧
      (read cfg st (-1) (some 0)).reqs = []) ∧
    (st.textMode ≠ some true → (read cfg st 0 none).result = .ok (emptyData cfg)) ∧
    (cfg.encoding = true → st.textMode ≠ some false →
      (read cfg st (-1) (some 0)).result = .ok (emptyData cfg)) := by
  refine ⟨?_, ?_, ?_, ?_⟩
  · by_cases h3 : st.textMode = some true
    · rw [read_err_text (by simp) (by simp) ⟨h3, by decide⟩]
      exact ⟨rfl, rfl⟩
    · rw [read_empty (by simp) (by simp) (by simp [h3]) (by simp) (Or.inl rfl)]
      exact ⟨rfl, rfl⟩
  · by_cases he : cfg.encoding
    · by_cases hb : st.textMode = some false
      · rw [read_err_bytes (by simp) (by simp [he]) (by simp) ⟨hb, by decide⟩]
        exact ⟨rfl, rfl⟩
      · rw [read_empty (by simp) (by simp [he]) (by simp) (by simp [hb])
          (Or.inr (Or.inl rfl))]
        exact ⟨rfl, rfl⟩
    · rw [read_err_enc (by simp) ⟨he, by decide⟩]
      exact ⟨rfl, rfl⟩
  · intro ht
    rw [read_empty (by simp) (by simp) (by simp [ht]) (by simp) (Or.inl rfl)]
  · intro he hb
    rw [read_empty (by simp) (by simp [he]) (by simp) (by simp [hb])
      (Or.inr (Or.inl rfl))]

theorem C4_zero_read_amended_witness :
    ((read c4cfg wst 0 none).state = wst ∧ (read c4cfg wst 0 none).reqs = []) ∧
    (read c4cfg wst 0 none).result = .ok (emptyData c4cfg) ∧
    (read c4cfg wst (-1) (some 0)).result = .ok (emptyData c4cfg) :=
  ⟨(C4_zero_read_amended c4cfg wst).1,
   (C4_zero_read_amended c4cfg wst).2.2.1 (by decide),
   (C4_zero_read_amended c4cfg wst).2.2.2 (by decide) (by decide)⟩

end BlobDL
